import Mathlib

set_option maxRecDepth 100000

/-!
Verification of the persistence / data-model core of the grant-buddy
repository (src/context_manager.py, class ContextManager).

The embedding models:
  - JSON values (class Json below) as produced by Python json.loads and
    consumed by json.dumps; Python dicts are association lists whose update
    keeps the position of an existing key (CPython dict semantics).
  - the on-disk state as a flat association list from file path to raw file
    content (class Fs), matching the one-file-per-tenant layout under
    user_contexts/.
  - json.dumps(v, indent=2) as an executable printer and json.loads as an
    executable fuel-based parser, with a proved print/parse round trip.
  - hashlib.sha256 over Nat with explicit % 2^32 arithmetic; file names are
    derived exactly as in ContextManager.get_user_file_path.
  - Python dynamic-type failures (AttributeError / TypeError on non-dict
    values) as an explicit error type; an error result carries the on-disk
    state at raise time, which is always the unmodified input state because
    every raise in the source happens before the file write.

Model boundaries (documented, none is exercised by the claims):
  - JSON number literals are restricted to integers; float, NaN and
    Infinity literals are rejected by the embedded parser while Python
    would produce floats (floating point is outside the model).
  - a \uXXXX escape denoting a lone UTF-16 surrogate decodes through
    Char.ofNat (hence to U+0000) where Python builds a lone-surrogate str.
-/

mutual

/-- JSON values.  Objects are insertion-ordered association lists with
string keys, mirroring Python dicts. -/
inductive Json where
  | jnull : Json
  | jbool (b : Bool) : Json
  | jnum (n : Int) : Json
  | jstr (s : String) : Json
  | jarr (xs : JsonList) : Json
  | jobj (kvs : JsonObj) : Json

inductive JsonList where
  | nil : JsonList
  | cons (hd : Json) (tl : JsonList) : JsonList

inductive JsonObj where
  | nil : JsonObj
  | cons (k : String) (v : Json) (tl : JsonObj) : JsonObj

end

/-- Lookup of a key in a Python dict (first matching entry). -/
def objGet : JsonObj → String → Option Json
  | .nil, _ => none
  | .cons k v t, key => if k = key then some v else objGet t key

/-- Python dict assignment d[key] = val: replaces the value in place when
the key is present, else appends the new entry at the end. -/
def objSet : JsonObj → String → Json → JsonObj
  | .nil, key, val => .cons key val .nil
  | .cons k v t, key, val =>
      if k = key then .cons k val t else .cons k v (objSet t key val)

/-- Python del d[key]: removes the entry with the given key. -/
def objDel : JsonObj → String → JsonObj
  | .nil, _ => .nil
  | .cons k v t, key => if k = key then t else .cons k v (objDel t key)

/-- Python list(d.keys()). -/
def objKeys : JsonObj → List String
  | .nil => []
  | .cons k _ t => k :: objKeys t

/-- Python dict(pairs): left fold of assignments over an association list,
so a repeated key keeps its first position and its last value. -/
def objFold : JsonObj → JsonObj → JsonObj
  | acc, .nil => acc
  | acc, .cons k v t => objFold (objSet acc k v) t

/-- Conversion applied to a freshly parsed object (dict building in the
json.loads scanner). -/
def dictOf (o : JsonObj) : JsonObj := objFold .nil o

/-- Python truthiness of a JSON value: None, False, 0, "", [] and
the empty dict are falsy. -/
def jsonTruthy : Json → Bool
  | .jnull => false
  | .jbool b => b
  | .jnum n => n != 0
  | .jstr s => s ≠ ""
  | .jarr .nil => false
  | .jarr (.cons _ _) => true
  | .jobj .nil => false
  | .jobj (.cons _ _ _) => true

mutual

/-- Well-formedness of a JSON value as produced by Python: every object
has pairwise distinct keys (Python dicts cannot hold duplicates). -/
def wfJson : Json → Bool
  | .jnull => true
  | .jbool _ => true
  | .jnum _ => true
  | .jstr _ => true
  | .jarr xs => wfList xs
  | .jobj kvs => wfObj kvs

def wfList : JsonList → Bool
  | .nil => true
  | .cons h t => wfJson h && wfList t

def wfObj : JsonObj → Bool
  | .nil => true
  | .cons k v t => (objGet t k).isNone && wfJson v && wfObj t

end

/-- Opening brace character, written via its code point. -/
def lbraceC : Char := Char.ofNat 123

/-- Closing brace character, written via its code point. -/
def rbraceC : Char := Char.ofNat 125

/-- Lowercase hexadecimal digit for a value below 16. -/
def hexChar (n : Nat) : Char :=
  Char.ofNat (if n < 10 then 48 + n else 87 + n)

/-- Four lowercase hexadecimal digits of a value below 65536 (the XXXX in a
json \uXXXX escape). -/
def toHex4 (n : Nat) : List Char :=
  [hexChar (n / 4096 % 16), hexChar (n / 256 % 16),
   hexChar (n / 16 % 16), hexChar (n % 16)]

/-- Decimal digits of a natural number, most significant first,
structurally recursive on a fuel bound (n itself shrinks by division at
each step, so fuel n + 1 always suffices). -/
def natDigitsGo : Nat → Nat → List Char
  | 0, _ => []
  | fuel + 1, n =>
      if n < 10 then [Char.ofNat (48 + n)]
      else natDigitsGo fuel (n / 10) ++ [Char.ofNat (48 + n % 10)]

/-- Decimal digits of a natural number, most significant first. -/
def natDigits (n : Nat) : List Char := natDigitsGo (n + 1) n

/-- Python repr of an int (the form json.dumps emits for integers). -/
def printInt (n : Int) : List Char :=
  if n < 0 then '-' :: natDigits n.natAbs else natDigits n.natAbs

/-- Escape of one character inside a json string, as emitted by Python
json.dumps with its default ensure_ascii=True: the two-character escapes
of ESCAPE_DCT, \uXXXX for other characters outside 0x20..0x7e, and a
UTF-16 surrogate pair for characters beyond 0xFFFF. -/
def escapeChar (c : Char) : List Char :=
  let n := c.toNat
  if c = '"' then ['\\', '"']
  else if c = '\\' then ['\\', '\\']
  else if n = 8 then ['\\', 'b']
  else if n = 9 then ['\\', 't']
  else if n = 10 then ['\\', 'n']
  else if n = 12 then ['\\', 'f']
  else if n = 13 then ['\\', 'r']
  else if n < 32 then '\\' :: 'u' :: toHex4 n
  else if n < 127 then [c]
  else if n < 65536 then '\\' :: 'u' :: toHex4 n
  else '\\' :: 'u' :: toHex4 (55296 + (n - 65536) / 1024) ++
       '\\' :: 'u' :: toHex4 (56320 + (n - 65536) % 1024)

/-- Json string literal: quote, escaped characters, quote. -/
def printStr (s : String) : List Char :=
  '"' :: (s.data.flatMap escapeChar) ++ ['"']

/-- Indentation: ind spaces. -/
def indentC (ind : Nat) : List Char := List.replicate ind ' '

mutual

/-- Characters emitted by Python json.dumps(v, indent=2) for a value
whose enclosing container is indented by ind spaces (top level: ind = 0).
Members of a non-empty container each start on a new line indented by
ind + 2; the closing bracket returns to ind. -/
def printJson (ind : Nat) : Json → List Char
  | .jnull => 'n' :: 'u' :: 'l' :: 'l' :: []
  | .jbool true => 't' :: 'r' :: 'u' :: 'e' :: []
  | .jbool false => 'f' :: 'a' :: 'l' :: 's' :: 'e' :: []
  | .jnum n => printInt n
  | .jstr s => printStr s
  | .jarr .nil => '[' :: ']' :: []
  | .jarr (.cons h t) =>
      '[' :: '\n' :: indentC (ind + 2) ++ printJson (ind + 2) h ++
        printListRest (ind + 2) t ++ '\n' :: indentC ind ++ [']']
  | .jobj .nil => lbraceC :: rbraceC :: []
  | .jobj (.cons k v t) =>
      lbraceC :: '\n' :: indentC (ind + 2) ++ printStr k ++ ':' :: ' ' ::
        printJson (ind + 2) v ++ printObjRest (ind + 2) t ++
        '\n' :: indentC ind ++ [rbraceC]

/-- Remaining array members, each preceded by the item separator
",\n" plus indentation. -/
def printListRest (ind : Nat) : JsonList → List Char
  | .nil => []
  | .cons h t =>
      ',' :: '\n' :: indentC ind ++ printJson ind h ++ printListRest ind t

/-- Remaining object members. -/
def printObjRest (ind : Nat) : JsonObj → List Char
  | .nil => []
  | .cons k v t =>
      ',' :: '\n' :: indentC ind ++ printStr k ++ ':' :: ' ' ::
        printJson ind v ++ printObjRest ind t

end

/-- Python json.dumps(v, indent=2), the serialization used by
ContextManager.save_contexts and ContextManager.export_context. -/
def jsonDumps (v : Json) : String := String.mk (printJson 0 v)

/-- JSON whitespace as accepted by json.loads (space, tab, newline,
carriage return). -/
def isWsChar (c : Char) : Bool := c = ' ' || c = '\t' || c = '\n' || c = '\r'

/-- Skip leading whitespace. -/
def skipWs : List Char → List Char
  | [] => []
  | c :: rest => if isWsChar c then skipWs rest else c :: rest

/-- Value of one hexadecimal digit (either case), as in the XXXX of a
\uXXXX escape. -/
def hexVal (c : Char) : Option Nat :=
  let n := c.toNat
  if 48 ≤ n ∧ n ≤ 57 then some (n - 48)
  else if 97 ≤ n ∧ n ≤ 102 then some (n - 87)
  else if 65 ≤ n ∧ n ≤ 70 then some (n - 55)
  else none

/-- Value of a four-digit hexadecimal escape payload. -/
def hex4Val (a b c d : Char) : Option Nat :=
  match hexVal a, hexVal b, hexVal c, hexVal d with
  | some x, some y, some z, some w => some (x * 4096 + y * 256 + z * 16 + w)
  | _, _, _, _ => none

/-- Single-character escapes accepted after a backslash by json.loads. -/
def escDecode (c : Char) : Option Char :=
  if c = '"' then some '"'
  else if c = '\\' then some '\\'
  else if c = '/' then some '/'
  else if c = 'b' then some (Char.ofNat 8)
  else if c = 'f' then some (Char.ofNat 12)
  else if c = 'n' then some (Char.ofNat 10)
  else if c = 'r' then some (Char.ofNat 13)
  else if c = 't' then some (Char.ofNat 9)
  else none

/-- Body of a json string literal after the opening quote: returns the
decoded characters and the input remaining after the closing quote.
Mirrors the scanstring loop of json.loads in strict mode: raw control
characters below 0x20 are rejected, \uXXXX escapes are decoded, and a
high/low surrogate escape pair is combined into one code point. -/
def parseStrBody : Nat → List Char → Option (List Char × List Char)
  | 0, _ => none
  | _ + 1, [] => none
  | fuel + 1, c :: rest =>
    if c = '"' then some ([], rest)
    else if c = '\\' then
      match rest with
      | 'u' :: a :: b :: c1 :: d :: rest2 =>
        (match hex4Val a b c1 d with
         | none => none
         | some cp =>
           if 55296 ≤ cp ∧ cp ≤ 56319 then
             match rest2 with
             | '\\' :: 'u' :: e :: f :: g :: h :: rest3 =>
               (match hex4Val e f g h with
                | none => none
                | some cp2 =>
                  if 56320 ≤ cp2 ∧ cp2 ≤ 57343 then
                    (parseStrBody fuel rest3).map (fun p =>
                      (Char.ofNat (65536 + (cp - 55296) * 1024 + (cp2 - 56320)) :: p.1, p.2))
                  else
                    (parseStrBody fuel rest2).map (fun p => (Char.ofNat cp :: p.1, p.2)))
             | _ => (parseStrBody fuel rest2).map (fun p => (Char.ofNat cp :: p.1, p.2))
           else (parseStrBody fuel rest2).map (fun p => (Char.ofNat cp :: p.1, p.2)))
      | e :: rest2 =>
        (match escDecode e with
         | none => none
         | some ec => (parseStrBody fuel rest2).map (fun p => (ec :: p.1, p.2)))
      | [] => none
    else if c.toNat < 32 then none
    else (parseStrBody fuel rest).map (fun p => (c :: p.1, p.2))

/-- Decimal digit test. -/
def digitB (c : Char) : Bool := 48 ≤ c.toNat && c.toNat ≤ 57

/-- Value of a list of decimal digits, most significant first. -/
def digitsVal (ds : List Char) : Nat :=
  ds.foldl (fun a c => a * 10 + (c.toNat - 48)) 0

/-- Unsigned integer literal: the 0|[1-9]digits alternative of the json
NUMBER_RE regex (maximal munch stops after a leading zero, as the regex
does). -/
def parseIntAbs : List Char → Option (Nat × List Char)
  | [] => none
  | c :: rest =>
    if c = '0' then some (0, rest)
    else if digitB c then
      some (digitsVal (c :: rest.takeWhile digitB), rest.dropWhile digitB)
    else none

/-- Rejection of a numeral followed by a fraction or exponent marker
(those would continue the NUMBER_RE match and produce a float, which is
outside the model). -/
def numTail (n : Int) (r : List Char) : Option (Json × List Char) :=
  match r with
  | c :: _ => if c = '.' || c = 'e' || c = 'E' then none else some (.jnum n, r)
  | [] => some (.jnum n, r)

/-- Number literal: optional minus sign and integer part, as matched by
the json NUMBER_RE regex restricted to integers. -/
def parseNum (s : List Char) : Option (Json × List Char) :=
  match s with
  | c :: t =>
    if c = '-' then
      match parseIntAbs t with
      | none => none
      | some (m, r) => numTail (-(m : Int)) r
    else
      match parseIntAbs (c :: t) with
      | none => none
      | some (m, r) => numTail (m : Int) r
  | [] => none

mutual

/-- Fuel-based json value scanner (json.loads): skips leading whitespace
and dispatches on the first character.  The fuel only bounds recursion
depth; parseJson supplies enough for any input it could succeed on. -/
def parseVal : Nat → List Char → Option (Json × List Char)
  | 0, _ => none
  | fuel + 1, s =>
    match skipWs s with
    | [] => none
    | c :: rest =>
      if c = '"' then
        (parseStrBody (rest.length + 1) rest).map (fun p => (Json.jstr (String.mk p.1), p.2))
      else if c = lbraceC then parseObjStart fuel rest
      else if c = '[' then parseArrStart fuel rest
      else
        match c :: rest with
        | 't' :: 'r' :: 'u' :: 'e' :: r => some (.jbool true, r)
        | 'f' :: 'a' :: 'l' :: 's' :: 'e' :: r => some (.jbool false, r)
        | 'n' :: 'u' :: 'l' :: 'l' :: r => some (.jnull, r)
        | s2 => parseNum s2

/-- Array body after the opening bracket. -/
def parseArrStart : Nat → List Char → Option (Json × List Char)
  | 0, _ => none
  | fuel + 1, s =>
    match skipWs s with
    | ']' :: r => some (.jarr .nil, r)
    | s2 =>
      match parseVal fuel s2 with
      | none => none
      | some (v, r) =>
        match parseArrRest fuel r with
        | none => none
        | some (t, r2) => some (.jarr (.cons v t), r2)

/-- Array members after a completed member: a comma and another member,
or the closing bracket. -/
def parseArrRest : Nat → List Char → Option (JsonList × List Char)
  | 0, _ => none
  | fuel + 1, s =>
    match skipWs s with
    | ']' :: r => some (.nil, r)
    | ',' :: r =>
      (match parseVal fuel r with
       | none => none
       | some (v, r2) =>
         match parseArrRest fuel r2 with
         | none => none
         | some (t, r3) => some (.cons v t, r3))
    | _ => none

/-- Object body after the opening brace: empty object, or a first
key/value pair followed by the member loop.  The finished pair list goes
through dictOf, the dict(pairs) step of the scanner. -/
def parseObjStart : Nat → List Char → Option (Json × List Char)
  | 0, _ => none
  | fuel + 1, s =>
    match skipWs s with
    | [] => none
    | c :: r =>
      if c = rbraceC then some (.jobj .nil, r)
      else if c = '"' then
        match parseStrBody (r.length + 1) r with
        | none => none
        | some (k, r1) =>
          match skipWs r1 with
          | ':' :: r2 =>
            (match parseVal fuel r2 with
             | none => none
             | some (v, r3) =>
               match parseObjMore fuel r3 with
               | none => none
               | some (t, r4) =>
                 some (.jobj (dictOf (.cons (String.mk k) v t)), r4))
          | _ => none
      else none

/-- Object members after a completed pair: a comma and another pair, or
the closing brace. -/
def parseObjMore : Nat → List Char → Option (JsonObj × List Char)
  | 0, _ => none
  | fuel + 1, s =>
    match skipWs s with
    | [] => none
    | c :: r =>
      if c = rbraceC then some (.nil, r)
      else if c = ',' then
        match skipWs r with
        | '"' :: r1 =>
          (match parseStrBody (r1.length + 1) r1 with
           | none => none
           | some (k, r2) =>
             match skipWs r2 with
             | ':' :: r3 =>
               (match parseVal fuel r3 with
                | none => none
                | some (v, r4) =>
                  match parseObjMore fuel r4 with
                  | none => none
                  | some (t, r5) => some (.cons (String.mk k) v t, r5))
             | _ => none)
        | _ => none
      else none

end

/-- Python json.loads: parse one value and require only whitespace after
it (the Extra data check of JSONDecoder.decode).  The fuel bound covers
every input on which the recursion can terminate: each nesting level or
member consumes at least one input character per at most three recursive
calls. -/
def parseJson (s : String) : Option Json :=
  match parseVal (3 * s.data.length + 8) s.data with
  | some (v, rest) => if skipWs rest = [] then some v else none
  | none => none

/-- Reduction to a 32-bit word. -/
def w32 (n : Nat) : Nat := n % 4294967296

/-- Right rotation of a 32-bit word. -/
def rotr32 (x n : Nat) : Nat := w32 ((x >>> n) ||| (x <<< (32 - n)))

/-- UTF-8 encoding of one character (str.encode in
ContextManager.get_user_file_path). -/
def utf8Char (c : Char) : List Nat :=
  let n := c.toNat
  if n < 128 then [n]
  else if n < 2048 then [192 + n / 64, 128 + n % 64]
  else if n < 65536 then [224 + n / 4096, 128 + n / 64 % 64, 128 + n % 64]
  else [240 + n / 262144, 128 + n / 4096 % 64, 128 + n / 64 % 64, 128 + n % 64]

/-- UTF-8 encoding of a string as a byte list. -/
def utf8Bytes (s : String) : List Nat := s.data.flatMap utf8Char

/-- Big-endian 8-byte encoding of the message bit length. -/
def be64 (n : Nat) : List Nat :=
  [(n >>> 56) % 256, (n >>> 48) % 256, (n >>> 40) % 256, (n >>> 32) % 256,
   (n >>> 24) % 256, (n >>> 16) % 256, (n >>> 8) % 256, n % 256]

/-- SHA-256 message padding: 0x80, zeros to 56 mod 64, then the bit
length. -/
def shaPad (msg : List Nat) : List Nat :=
  msg ++ 128 :: List.replicate ((119 - msg.length % 64) % 64) 0 ++
    be64 (8 * msg.length)

/-- Split a byte list into 64-byte chunks, structurally recursive on a
fuel bound (each step drops 64 bytes, so fuel length + 1 suffices). -/
def chunks64Go : Nat → List Nat → List (List Nat)
  | 0, _ => []
  | fuel + 1, bs =>
      if bs.length = 0 then []
      else bs.take 64 :: chunks64Go fuel (bs.drop 64)

/-- Split a byte list into 64-byte chunks. -/
def chunks64 (bs : List Nat) : List (List Nat) := chunks64Go (bs.length + 1) bs

/-- Big-endian 4-byte grouping of a chunk into 32-bit words. -/
def bytesToWords : List Nat → List Nat
  | b1 :: b2 :: b3 :: b4 :: rest =>
      (b1 * 16777216 + b2 * 65536 + b3 * 256 + b4) :: bytesToWords rest
  | _ => []

/-- List element with default 0 (word access in the schedule). -/
def nthD (l : List Nat) (i : Nat) : Nat := l.getD i 0

/-- Message-schedule extension step, operating on the reversed word list
(most recent word first): w16 = w0 + s0(w1) + w9 + s1(w14) in standard
indexing. -/
def extendSched : Nat → List Nat → List Nat
  | 0, rev => rev
  | f + 1, rev =>
      let ww15 := nthD rev 14
      let ww2 := nthD rev 1
      let s0 := (rotr32 ww15 7) ^^^ (rotr32 ww15 18) ^^^ (ww15 >>> 3)
      let s1 := (rotr32 ww2 17) ^^^ (rotr32 ww2 19) ^^^ (ww2 >>> 10)
      extendSched f (w32 (nthD rev 15 + s0 + nthD rev 6 + s1) :: rev)

/-- Full 64-word message schedule of one chunk. -/
def schedule (ws16 : List Nat) : List Nat :=
  (extendSched 48 ws16.reverse).reverse

/-- SHA-256 working state / digest: eight 32-bit words. -/
structure Digest8 where
  d0 : Nat
  d1 : Nat
  d2 : Nat
  d3 : Nat
  d4 : Nat
  d5 : Nat
  d6 : Nat
  d7 : Nat

/-- SHA-256 round constants. -/
def k256 : List Nat :=
  [1116352408, 1899447441, 3049323471, 3921009573, 961987163, 1508970993,
   2453635748, 2870763221, 3624381080, 310598401, 607225278, 1426881987,
   1925078388, 2162078206, 2614888103, 3248222580, 3835390401, 4022224774,
   264347078, 604807628, 770255983, 1249150122, 1555081692, 1996064986,
   2554220882, 2821834349, 2952996808, 3210313671, 3336571891, 3584528711,
   113926993, 338241895, 666307205, 773529912, 1294757372, 1396182291,
   1695183700, 1986661051, 2177026350, 2456956037, 2730485921, 2820302411,
   3259730800, 3345764771, 3516065817, 3600352804, 4094571909, 275423344,
   430227734, 506948616, 659060556, 883997877, 958139571, 1322822218,
   1537002063, 1747873779, 1955562222, 2024104815, 2227730452, 2361852424,
   2428436474, 2756734187, 3204031479, 3329325298]

/-- SHA-256 initial hash value. -/
def h256 : Digest8 :=
  ⟨1779033703, 3144134277, 1013904242, 2773480762,
   1359893119, 2600822924, 528734635, 1541459225⟩

/-- One compression round; kw pairs the round constant with the schedule
word. -/
def roundStep (st : Digest8) (kw : Nat × Nat) : Digest8 :=
  let e := st.d4
  let bigS1 := (rotr32 e 6) ^^^ (rotr32 e 11) ^^^ (rotr32 e 25)
  let ch := (e &&& st.d5) ^^^ ((e ^^^ 4294967295) &&& st.d6)
  let temp1 := w32 (st.d7 + bigS1 + ch + kw.1 + kw.2)
  let a := st.d0
  let bigS0 := (rotr32 a 2) ^^^ (rotr32 a 13) ^^^ (rotr32 a 22)
  let maj := (a &&& st.d1) ^^^ (a &&& st.d2) ^^^ (st.d1 &&& st.d2)
  let temp2 := w32 (bigS0 + maj)
  ⟨w32 (temp1 + temp2), a, st.d1, st.d2, w32 (st.d3 + temp1), e, st.d5, st.d6⟩

/-- Compression of one 64-byte chunk into the running state. -/
def compressChunk (st : Digest8) (chunk : List Nat) : Digest8 :=
  let f := (List.zip k256 (schedule (bytesToWords chunk))).foldl roundStep st
  ⟨w32 (st.d0 + f.d0), w32 (st.d1 + f.d1), w32 (st.d2 + f.d2),
   w32 (st.d3 + f.d3), w32 (st.d4 + f.d4), w32 (st.d5 + f.d5),
   w32 (st.d6 + f.d6), w32 (st.d7 + f.d7)⟩

/-- SHA-256 digest (eight words) of a byte message. -/
def sha256 (msg : List Nat) : Digest8 :=
  (chunks64 (shaPad msg)).foldl compressChunk h256

/-- Eight lowercase hex digits of a 32-bit word, most significant nibble
first (the per-word slice of hashlib hexdigest). -/
def wordHex (w : Nat) : List Char :=
  [hexChar (w / 268435456 % 16), hexChar (w / 16777216 % 16),
   hexChar (w / 1048576 % 16), hexChar (w / 65536 % 16),
   hexChar (w / 4096 % 16), hexChar (w / 256 % 16),
   hexChar (w / 16 % 16), hexChar (w % 16)]

/-- hashlib.sha256(msg).hexdigest(): 64 lowercase hex characters. -/
def sha256Hex (msg : List Nat) : List Char :=
  let d := sha256 msg
  wordHex d.d0 ++ wordHex d.d1 ++ wordHex d.d2 ++ wordHex d.d3 ++
  wordHex d.d4 ++ wordHex d.d5 ++ wordHex d.d6 ++ wordHex d.d7

/-- Tenant key: hashlib.sha256(workspace_key.encode()).hexdigest()[:16]
(ContextManager.get_user_file_path, line 47). -/
def keyHash (workspace_key : String) : List Char :=
  (sha256Hex (utf8Bytes workspace_key)).take 16

/-- ContextManager.get_user_file_path: the tenant document path
user_contexts/contexts_<keyHash>.json. -/
def get_user_file_path (workspace_key : String) : String :=
  String.mk ("user_contexts/contexts_".data ++ keyHash workspace_key ++ ".json".data)

/-- On-disk state: association list from file path to raw file content.
os.path.exists + open/read corresponds to fsGet, open("w")/write to
fsSet. -/
def Fs : Type := List (String × String)

/-- Content of the file at a path, if it exists. -/
def fsGet : Fs → String → Option String
  | [], _ => none
  | (p, c) :: rest, path => if p = path then some c else fsGet rest path

/-- Overwrite or create the file at a path. -/
def fsSet : Fs → String → String → Fs
  | [], path, content => [(path, content)]
  | (p, c) :: rest, path, content =>
      if p = path then (p, content) :: rest
      else (p, c) :: fsSet rest path content

/-- Python runtime errors raised by the source on non-dict values:
AttributeError from attribute lookup (.get / .keys on a non-dict),
TypeError from item assignment / deletion / membership on an unsuitable
value. -/
inductive PyError where
  | attributeError : PyError
  | typeError : PyError

/-- ContextManager.load_contexts: returns the parsed tenant document
(json.load result, not necessarily a dict), or an empty dict when the
workspace key is falsy, the file is missing, or parsing fails with
JSONDecodeError. -/
def load_contexts (workspace_key : String) (fs : Fs) : Json :=
  if workspace_key = "" then .jobj .nil
  else
    match fsGet fs (get_user_file_path workspace_key) with
    | none => .jobj .nil
    | some content =>
      match parseJson content with
      | none => .jobj .nil
      | some v => v

/-- ContextManager.save_contexts: overwrite the tenant document with
json.dump(contexts, f, indent=2); no-op when the workspace key is
falsy. -/
def save_contexts (contexts : Json) (workspace_key : String) (fs : Fs) : Fs :=
  if workspace_key = "" then fs
  else fsSet fs (get_user_file_path workspace_key) (jsonDumps contexts)

/-- ContextManager.get_context_names: list(load_contexts(...).keys());
raises AttributeError when the persisted document is valid JSON but not
an object. -/
def get_context_names (workspace_key : String) (fs : Fs) :
    Except PyError (List String) :=
  match load_contexts workspace_key fs with
  | .jobj kvs => .ok (objKeys kvs)
  | _ => .error .attributeError

/-- ContextManager.get_context: load_contexts(...).get(name). -/
def get_context (name workspace_key : String) (fs : Fs) :
    Except PyError (Option Json) :=
  match load_contexts workspace_key fs with
  | .jobj kvs => .ok (objGet kvs name)
  | _ => .error .attributeError

/-- ContextManager.save_context.  The error case carries the on-disk
state at raise time; every raise happens before the write, so that state
is the unchanged input.  Statement order follows the source: load the
collection, stamp last_updated on the record (TypeError unless the
record is a dict), insert under name (TypeError unless the collection is
a dict), persist. -/
def save_context (name : String) (context_data : Json)
    (workspace_key now : String) (fs : Fs) : Except (PyError × Fs) Fs :=
  if workspace_key = "" then .ok fs
  else
    let contexts := load_contexts workspace_key fs
    match context_data with
    | .jobj dkvs =>
      (match contexts with
       | .jobj ckvs =>
         .ok (save_contexts
           (.jobj (objSet ckvs name (.jobj (objSet dkvs "last_updated" (.jstr now)))))
           workspace_key fs)
       | _ => .error (.typeError, fs))
    | _ => .error (.typeError, fs)

/-- Python substring test (the membership operator on str). -/
def strInfix : List Char → List Char → Bool
  | p, [] => p.isEmpty
  | p, c :: rest => p.isPrefixOf (c :: rest) || strInfix p rest

/-- Python membership of a string in a list of JSON values (string
equality against each member). -/
def jsonListContainsStr : JsonList → String → Bool
  | .nil, _ => false
  | .cons (.jstr t) rest, s => s = t || jsonListContainsStr rest s
  | .cons _ rest, s => jsonListContainsStr rest s

/-- ContextManager.delete_context: no-op when the workspace key is falsy
or the name is absent; removes and persists otherwise.  On a persisted
document that is valid JSON but not a dict, the membership test follows
Python semantics (list membership / substring test), and the del
statement raises TypeError. -/
def delete_context (name workspace_key : String) (fs : Fs) :
    Except (PyError × Fs) Fs :=
  if workspace_key = "" then .ok fs
  else
    match load_contexts workspace_key fs with
    | .jobj ckvs =>
      if (objGet ckvs name).isSome then
        .ok (save_contexts (.jobj (objDel ckvs name)) workspace_key fs)
      else .ok fs
    | .jarr xs =>
      if jsonListContainsStr xs name then .error (.typeError, fs) else .ok fs
    | .jstr s =>
      if strInfix name.data s.data then .error (.typeError, fs) else .ok fs
    | _ => .error (.typeError, fs)

/-- ContextManager.export_context: json.dumps(context, indent=2) when
the looked-up record is truthy, else None (an empty dict exports as
None). -/
def export_context (name workspace_key : String) (fs : Fs) :
    Except PyError (Option String) :=
  match get_context name workspace_key fs with
  | .error e => .error e
  | .ok none => .ok none
  | .ok (some c) => if jsonTruthy c then .ok (some (jsonDumps c)) else .ok none

/-- Conversion of a parsed company_name value to the dict key / dumped
key Python ends up with: a str key is used as is; an int, bool or None
key is coerced to its json text by json.dump before it is persisted.
A list or dict value is unhashable and cannot become a key. -/
def pyKeyStr : Json → Option String
  | .jstr s => some s
  | .jnum n => some (String.mk (printInt n))
  | .jbool true => some "true"
  | .jbool false => some "false"
  | .jnull => some "null"
  | _ => none

/-- ContextManager.import_context: False when the workspace key is falsy
or json.loads raises JSONDecodeError (state untouched); otherwise the
target name is the explicit name if truthy, else the parsed document's
company_name (AttributeError on a non-dict document), else the literal
"Imported Context"; then save_context runs and True is returned. -/
def import_context (json_string workspace_key : String)
    (context_name : Option String) (now : String) (fs : Fs) :
    Except (PyError × Fs) (Bool × Fs) :=
  if workspace_key = "" then .ok (false, fs)
  else
    match parseJson json_string with
    | none => .ok (false, fs)
    | some context_data =>
      let explicit : Option String :=
        match context_name with
        | some s => if s = "" then none else some s
        | none => none
      match explicit with
      | some nm =>
        (match save_context nm context_data workspace_key now fs with
         | .ok fs2 => .ok (true, fs2)
         | .error e => .error e)
      | none =>
        match context_data with
        | .jobj kvs =>
          (match objGet kvs "company_name" with
           | some v =>
             (match pyKeyStr v with
              | some nm =>
                (match save_context nm context_data workspace_key now fs with
                 | .ok fs2 => .ok (true, fs2)
                 | .error e => .error e)
              | none => .error (.typeError, fs))
           | none =>
             (match save_context "Imported Context" context_data workspace_key now fs with
              | .ok fs2 => .ok (true, fs2)
              | .error e => .error e))
        | _ => .error (.attributeError, fs)

/-- Delimiter condition after a printed number: the next character (if
any) cannot extend the numeral or turn it into a float literal. -/
def NumDelim (rest : List Char) : Prop :=
  ∀ c, rest.head? = some c →
    digitB c = false ∧ c ≠ '.' ∧ c ≠ 'e' ∧ c ≠ 'E'

mutual

/-- Parser-fuel budget of a value: enough parseVal steps to consume its
printed form. -/
def jfuelV : Json → Nat
  | .jnull => 1
  | .jbool _ => 1
  | .jnum _ => 1
  | .jstr _ => 1
  | .jarr xs => 2 + jfuelL xs
  | .jobj o => 2 + jfuelO o

def jfuelL : JsonList → Nat
  | .nil => 1
  | .cons h t => 2 + jfuelV h + jfuelL t

def jfuelO : JsonObj → Nat
  | .nil => 1
  | .cons _ v t => 2 + jfuelV v + jfuelO t

end

/-- Concatenation of association lists. -/
def objConcat : JsonObj → JsonObj → JsonObj
  | .nil, o => o
  | .cons k v t, o => .cons k v (objConcat t o)

/-- Completeness of the scanner on one printed value. -/
def CompV (v : Json) : Prop :=
  wfJson v = true → ∀ k fuel rest, jfuelV v ≤ fuel → NumDelim rest →
    parseVal fuel (printJson k v ++ rest) = some (v, rest)

/-- Completeness of the member loop on printed array members. -/
def CompL (xs : JsonList) : Prop :=
  wfList xs = true → ∀ k fuel rest, jfuelL xs ≤ fuel →
    parseArrRest fuel
      (printListRest (k + 2) xs ++ '\n' :: (indentC k ++ ']' :: rest)) =
      some (xs, rest)

/-- Completeness of the member loop on printed object members. -/
def CompO (o : JsonObj) : Prop :=
  wfObj o = true → ∀ k fuel rest, jfuelO o ≤ fuel →
    parseObjMore fuel
      (printObjRest (k + 2) o ++ '\n' :: (indentC k ++ rbraceC :: rest)) =
      some (o, rest)

def valuesWf : JsonObj → Bool
  | .nil => true
  | .cons _ v t => wfJson v && valuesWf t

def hexNibble (c : Char) : Nat := (hexVal c).getD 0

/-- Big-endian base-16 value of a digit string (used only to count the
possible tenant keys). -/
def keyNat : List Char → Nat
  | [] => 0
  | c :: rest => hexNibble c * 16 ^ rest.length + keyNat rest

/-- The n-th of an infinite family of pairwise distinct non-empty
workspace keys. -/
def repKey (n : Nat) : String := String.mk (List.replicate (n + 1) 'a')

/-- Induction principle for JsonObj alone (the autogenerated recursor of
the mutual family has several motives, which the induction tactic cannot
use). -/
theorem jsonObjStructInd (motive : JsonObj → Prop) (hnil : motive .nil)
    (hcons : ∀ k v t, motive t → motive (.cons k v t)) : ∀ o, motive o
  | .nil => hnil
  | .cons k v t => hcons k v t (jsonObjStructInd motive hnil hcons t)

/-- Induction principle for JsonList alone. -/
theorem jsonListStructInd (motive : JsonList → Prop) (hnil : motive .nil)
    (hcons : ∀ h t, motive t → motive (.cons h t)) : ∀ o, motive o
  | .nil => hnil
  | .cons h t => hcons h t (jsonListStructInd motive hnil hcons t)

theorem objGet_objSet_self (o : JsonObj) (k : String) (v : Json) :
    objGet (objSet o k v) k = some v := by
  induction o using jsonObjStructInd with
  | hnil => simp [objSet, objGet]
  | hcons k' v' t ih =>
      by_cases h : k' = k
      · simp [objSet, h, objGet]
      · simp [objSet, h, objGet, ih]

theorem objGet_objSet_ne (o : JsonObj) (k m : String) (v : Json) (h : m ≠ k) :
    objGet (objSet o k v) m = objGet o m := by
  induction o using jsonObjStructInd with
  | hnil => simp [objSet, objGet, Ne.symm h]
  | hcons k' v' t ih =>
      by_cases hk : k' = k
      · subst hk
        simp [objSet, objGet, Ne.symm h]
      · by_cases hm : k' = m
        · subst hm
          simp [objSet, hk, objGet]
        · simp [objSet, hk, objGet, hm, ih]

theorem objGet_objDel_ne (o : JsonObj) (k m : String) (h : m ≠ k) :
    objGet (objDel o k) m = objGet o m := by
  induction o using jsonObjStructInd with
  | hnil => simp [objDel]
  | hcons k' v' t ih =>
      by_cases hk : k' = k
      · subst hk
        simp [objDel, objGet, Ne.symm h]
      · by_cases hm : k' = m
        · subst hm
          simp [objDel, hk, objGet]
        · simp [objDel, hk, objGet, hm, ih]

theorem objGet_objDel_self (o : JsonObj) (k : String) (hwf : wfObj o = true) :
    objGet (objDel o k) k = none := by
  induction o using jsonObjStructInd with
  | hnil => simp [objDel, objGet]
  | hcons k' v' t ih =>
      simp only [wfObj, Bool.and_eq_true, Option.isNone_iff_eq_none] at hwf
      by_cases hk : k' = k
      · subst hk
        simpa [objDel] using hwf.1.1
      · simp [objDel, hk, objGet, ih hwf.2]

theorem wfObj_objSet (o : JsonObj) (k : String) (v : Json)
    (hwf : wfObj o = true) (hv : wfJson v = true) :
    wfObj (objSet o k v) = true := by
  induction o using jsonObjStructInd with
  | hnil => simp [objSet, wfObj, objGet, hv]
  | hcons k' v' t ih =>
      simp only [wfObj, Bool.and_eq_true, Option.isNone_iff_eq_none] at hwf
      by_cases hk : k' = k
      · subst hk
        simp [objSet, wfObj, hwf.1.1, hv, hwf.2]
      · simp only [objSet, hk, if_false, wfObj, Bool.and_eq_true,
          Option.isNone_iff_eq_none]
        refine ⟨⟨?_, hwf.1.2⟩, ih hwf.2⟩
        rw [objGet_objSet_ne t k k' v hk]
        exact hwf.1.1

theorem wfObj_objDel (o : JsonObj) (k : String) (hwf : wfObj o = true) :
    wfObj (objDel o k) = true := by
  induction o using jsonObjStructInd with
  | hnil => simp [objDel, wfObj]
  | hcons k' v' t ih =>
      simp only [wfObj, Bool.and_eq_true, Option.isNone_iff_eq_none] at hwf
      by_cases hk : k' = k
      · subst hk
        simpa [objDel] using hwf.2
      · simp only [objDel, hk, if_false, wfObj, Bool.and_eq_true,
          Option.isNone_iff_eq_none]
        refine ⟨⟨?_, hwf.1.2⟩, ih hwf.2⟩
        rw [objGet_objDel_ne t k k' hk]
        exact hwf.1.1

theorem hexVal_hexChar (d : Nat) (h : d < 16) : hexVal (hexChar d) = some d := by
  interval_cases d <;> decide

theorem hex4Val_toHex4 (n : Nat) (h : n < 65536) :
    hex4Val (hexChar (n / 4096 % 16)) (hexChar (n / 256 % 16))
      (hexChar (n / 16 % 16)) (hexChar (n % 16)) = some n := by
  rw [hex4Val, hexVal_hexChar _ (Nat.mod_lt _ (by omega)),
    hexVal_hexChar _ (Nat.mod_lt _ (by omega)),
    hexVal_hexChar _ (Nat.mod_lt _ (by omega)),
    hexVal_hexChar _ (Nat.mod_lt _ (by omega))]
  exact congrArg some (by omega :
    n / 4096 % 16 * 4096 + n / 256 % 16 * 256 + n / 16 % 16 * 16 + n % 16 = n)

theorem digitsVal_append (xs : List Char) (c : Char) :
    digitsVal (xs ++ [c]) = digitsVal xs * 10 + (c.toNat - 48) := by
  simp [digitsVal, List.foldl_append]

theorem natDigitsGo_spec : ∀ fuel n, n < fuel →
    (∃ c cs, natDigitsGo fuel n = c :: cs ∧ (1 ≤ n → c ≠ '0')) ∧
    (∀ c ∈ natDigitsGo fuel n, digitB c = true) ∧
    digitsVal (natDigitsGo fuel n) = n := by
  intro fuel
  induction fuel with
  | zero => omega
  | succ f ih =>
      intro n hn
      by_cases h10 : n < 10
      · have hall : natDigitsGo (f + 1) n = [Char.ofNat (48 + n)] := by
          simp [natDigitsGo, h10]
        refine ⟨⟨Char.ofNat (48 + n), [], hall, ?_⟩, ?_, ?_⟩
        · intro h1
          interval_cases n <;> decide
        · intro c hc
          rw [hall] at hc
          simp at hc
          subst hc
          interval_cases n <;> decide
        · rw [hall]
          have : (Char.ofNat (48 + n)).toNat = 48 + n := by
            interval_cases n <;> decide
          simp [digitsVal, this]
      · have hrec : natDigitsGo (f + 1) n =
            natDigitsGo f (n / 10) ++ [Char.ofNat (48 + n % 10)] := by
          simp [natDigitsGo, h10]
        have hlt : n / 10 < f := by omega
        obtain ⟨⟨c, cs, hcons, hc0⟩, hdig, hval⟩ := ih (n / 10) hlt
        have hm : n % 10 < 10 := Nat.mod_lt _ (by omega)
        have hmdig : digitB (Char.ofNat (48 + n % 10)) = true := by
          set m := n % 10 with hmdef
          interval_cases m <;> decide
        have hmtoNat : (Char.ofNat (48 + n % 10)).toNat = 48 + n % 10 := by
          set m := n % 10 with hmdef
          interval_cases m <;> decide
        refine ⟨⟨c, cs ++ [Char.ofNat (48 + n % 10)], ?_, ?_⟩, ?_, ?_⟩
        · rw [hrec, hcons]
          simp
        · intro _
          exact hc0 (by omega)
        · intro x hx
          rw [hrec] at hx
          rcases List.mem_append.mp hx with hx1 | hx2
          · exact hdig x hx1
          · simp at hx2
            subst hx2
            exact hmdig
        · rw [hrec, digitsVal_append, hval, hmtoNat]
          omega

theorem natDigits_spec (n : Nat) :
    (∃ c cs, natDigits n = c :: cs ∧ (1 ≤ n → c ≠ '0')) ∧
    (∀ c ∈ natDigits n, digitB c = true) ∧
    digitsVal (natDigits n) = n :=
  natDigitsGo_spec (n + 1) n (by omega)

theorem takeWhile_append_all {p : Char → Bool} (xs rest : List Char)
    (h : ∀ x ∈ xs, p x = true) :
    (xs ++ rest).takeWhile p = xs ++ rest.takeWhile p := by
  induction xs with
  | nil => simp
  | cons x xs ih =>
      have hx : p x = true := h x (by simp)
      simp only [List.cons_append, List.takeWhile_cons, hx, if_true]
      rw [ih (fun y hy => h y (by simp [hy]))]

theorem dropWhile_append_all {p : Char → Bool} (xs rest : List Char)
    (h : ∀ x ∈ xs, p x = true) :
    (xs ++ rest).dropWhile p = rest.dropWhile p := by
  induction xs with
  | nil => simp
  | cons x xs ih =>
      have hx : p x = true := h x (by simp)
      simp only [List.cons_append, List.dropWhile_cons, hx, if_true]
      exact ih (fun y hy => h y (by simp [hy]))

theorem takeWhile_head_false {p : Char → Bool} (rest : List Char)
    (h : ∀ c, rest.head? = some c → p c = false) :
    rest.takeWhile p = [] := by
  cases rest with
  | nil => simp
  | cons c cs => simp [List.takeWhile_cons, h c rfl]

theorem dropWhile_head_false {p : Char → Bool} (rest : List Char)
    (h : ∀ c, rest.head? = some c → p c = false) :
    rest.dropWhile p = rest := by
  cases rest with
  | nil => simp
  | cons c cs => simp [List.dropWhile_cons, h c rfl]

theorem parseIntAbs_natDigits (n : Nat) (rest : List Char)
    (hrest : ∀ c, rest.head? = some c → digitB c = false) :
    parseIntAbs (natDigits n ++ rest) = some (n, rest) := by
  obtain ⟨⟨c, cs, hcons, hc0⟩, hdig, hval⟩ := natDigits_spec n
  by_cases h0 : n = 0
  · subst h0
    have : natDigits 0 = ['0'] := by decide
    rw [this]
    simp [parseIntAbs]
  · have hc0' : c ≠ '0' := hc0 (by omega)
    rw [hcons]
    simp only [List.cons_append, parseIntAbs, hc0', if_false]
    have hcd : digitB c = true := hdig c (by rw [hcons]; simp)
    rw [if_pos hcd]
    have hcs : ∀ x ∈ cs, digitB x = true := by
      intro x hx
      exact hdig x (by rw [hcons]; simp [hx])
    rw [takeWhile_append_all cs rest hcs, dropWhile_append_all cs rest hcs,
      takeWhile_head_false rest hrest, dropWhile_head_false rest hrest]
    have : digitsVal (c :: (cs ++ [])) = n := by
      simpa using hval.symm ▸ (by rw [hcons])
    simp only [List.append_nil]
    have hval' : digitsVal (c :: cs) = n := by rw [← hcons]; exact hval
    rw [hval']

theorem numTail_delim (n : Int) (rest : List Char) (hrest : NumDelim rest) :
    numTail n rest = some (.jnum n, rest) := by
  cases hr : rest with
  | nil => rfl
  | cons c cs =>
      have h := hrest c (by rw [hr]; rfl)
      simp [numTail, h.2.1, h.2.2.1, h.2.2.2]

theorem parseNum_printInt (n : Int) (rest : List Char) (hrest : NumDelim rest) :
    parseNum (printInt n ++ rest) = some (.jnum n, rest) := by
  by_cases hneg : n < 0
  · have hpr : printInt n = '-' :: natDigits n.natAbs := by
      simp [printInt, hneg]
    rw [hpr]
    simp only [List.cons_append, parseNum, if_pos rfl,
      parseIntAbs_natDigits n.natAbs rest (fun c hc => (hrest c hc).1)]
    have hn : -((n.natAbs : Nat) : Int) = n := by omega
    rw [hn]
    exact numTail_delim n rest hrest
  · have hpr : printInt n = natDigits n.natAbs := by
      simp [printInt, hneg]
    rw [hpr]
    obtain ⟨⟨c, cs, hcons, _⟩, hdig, _⟩ := natDigits_spec n.natAbs
    have hcd : digitB c = true := hdig c (by rw [hcons]; simp)
    have hcne : ¬ c = '-' := by
      intro hc
      rw [hc] at hcd
      exact absurd hcd (by decide)
    rw [hcons]
    simp only [List.cons_append, parseNum, if_neg hcne]
    rw [show (c :: (cs ++ rest)) = (c :: cs) ++ rest from rfl, ← hcons,
      parseIntAbs_natDigits n.natAbs rest (fun c hc => (hrest c hc).1)]
    show numTail ((n.natAbs : Nat) : Int) rest = some (Json.jnum n, rest)
    have hn : ((n.natAbs : Nat) : Int) = n := by omega
    rw [hn]
    exact numTail_delim n rest hrest

theorem char_valid_range (c : Char) :
    c.toNat < 55296 ∨ (57343 < c.toNat ∧ c.toNat < 1114112) := by
  rcases c.valid with h | h
  · exact Or.inl h
  · exact Or.inr h

theorem psb_esc_quote (f : Nat) (rest : List Char) :
    parseStrBody (f + 1) ('\\' :: '"' :: rest) =
      (parseStrBody f rest).map (fun p => ('"' :: p.1, p.2)) := by
  simp [parseStrBody, escDecode]

theorem psb_esc_backslash (f : Nat) (rest : List Char) :
    parseStrBody (f + 1) ('\\' :: '\\' :: rest) =
      (parseStrBody f rest).map (fun p => ('\\' :: p.1, p.2)) := by
  simp [parseStrBody, escDecode]

theorem psb_esc_b (f : Nat) (rest : List Char) :
    parseStrBody (f + 1) ('\\' :: 'b' :: rest) =
      (parseStrBody f rest).map (fun p => (Char.ofNat 8 :: p.1, p.2)) := by
  simp [parseStrBody, escDecode]

theorem psb_esc_t (f : Nat) (rest : List Char) :
    parseStrBody (f + 1) ('\\' :: 't' :: rest) =
      (parseStrBody f rest).map (fun p => (Char.ofNat 9 :: p.1, p.2)) := by
  simp [parseStrBody, escDecode]

theorem psb_esc_n (f : Nat) (rest : List Char) :
    parseStrBody (f + 1) ('\\' :: 'n' :: rest) =
      (parseStrBody f rest).map (fun p => (Char.ofNat 10 :: p.1, p.2)) := by
  simp [parseStrBody, escDecode]

theorem psb_esc_f (f : Nat) (rest : List Char) :
    parseStrBody (f + 1) ('\\' :: 'f' :: rest) =
      (parseStrBody f rest).map (fun p => (Char.ofNat 12 :: p.1, p.2)) := by
  simp [parseStrBody, escDecode]

theorem psb_esc_r (f : Nat) (rest : List Char) :
    parseStrBody (f + 1) ('\\' :: 'r' :: rest) =
      (parseStrBody f rest).map (fun p => (Char.ofNat 13 :: p.1, p.2)) := by
  simp [parseStrBody, escDecode]

theorem psb_raw (f : Nat) (rest : List Char) (c : Char) (h1 : ¬ c = '"')
    (h2 : ¬ c = '\\') (h3 : ¬ c.toNat < 32) :
    parseStrBody (f + 1) (c :: rest) =
      (parseStrBody f rest).map (fun p => (c :: p.1, p.2)) := by
  simp [parseStrBody, h1, h2, h3]

theorem psb_u_single (f : Nat) (rest : List Char) (n : Nat) (hn : n < 65536)
    (hns : ¬ (55296 ≤ n ∧ n ≤ 56319)) :
    parseStrBody (f + 1) ('\\' :: 'u' :: (toHex4 n ++ rest)) =
      (parseStrBody f rest).map (fun p => (Char.ofNat n :: p.1, p.2)) := by
  rw [toHex4]
  simp [parseStrBody, hex4Val_toHex4 n hn, hns]

theorem psb_u_pair (f : Nat) (rest : List Char) (hi lo : Nat)
    (hhi : hi < 65536) (hlo : lo < 65536)
    (hhir : 55296 ≤ hi ∧ hi ≤ 56319) (hlor : 56320 ≤ lo ∧ lo ≤ 57343) :
    parseStrBody (f + 1)
        ('\\' :: 'u' :: (toHex4 hi ++ '\\' :: 'u' :: (toHex4 lo ++ rest))) =
      (parseStrBody f rest).map
        (fun p => (Char.ofNat (65536 + (hi - 55296) * 1024 + (lo - 56320)) :: p.1, p.2)) := by
  rw [toHex4, toHex4]
  simp [parseStrBody, hex4Val_toHex4 hi hhi, hex4Val_toHex4 lo hlo, hhir, hlor]

theorem parseStrBody_escape : ∀ (cs rest : List Char) (fuel : Nat),
    (cs.flatMap escapeChar).length < fuel →
    parseStrBody fuel (cs.flatMap escapeChar ++ '"' :: rest) = some (cs, rest) := by
  intro cs
  induction cs with
  | nil =>
      intro rest fuel hf
      cases fuel with
      | zero => omega
      | succ f => simp [parseStrBody]
  | cons c cs ih =>
      intro rest fuel hf
      rw [List.flatMap_cons] at hf ⊢
      cases fuel with
      | zero => omega
      | succ f =>
        rw [List.length_append] at hf
        by_cases hq : c = '"'
        · subst hq
          have hE : escapeChar '"' = ['\\', '"'] := by decide
          rw [hE] at hf ⊢
          simp only [List.length_cons, List.length_nil] at hf
          have hih := ih rest f (by omega)
          simp only [List.cons_append, List.nil_append]
          rw [psb_esc_quote, hih]
          rfl
        · by_cases hb : c = '\\'
          · subst hb
            have hE : escapeChar '\\' = ['\\', '\\'] := by decide
            rw [hE] at hf ⊢
            simp only [List.length_cons, List.length_nil] at hf
            have hih := ih rest f (by omega)
            simp only [List.cons_append, List.nil_append]
            rw [psb_esc_backslash, hih]
            rfl
          · by_cases h8 : c.toNat = 8
            · have hc : Char.ofNat 8 = c := by rw [← h8, Char.ofNat_toNat]
              have hE : escapeChar c = ['\\', 'b'] := by
                rw [← hc]; decide
              rw [hE] at hf ⊢
              simp only [List.length_cons, List.length_nil] at hf
              have hih := ih rest f (by omega)
              simp only [List.cons_append, List.nil_append]
              rw [psb_esc_b, hih, hc]
              rfl
            · by_cases h9 : c.toNat = 9
              · have hc : Char.ofNat 9 = c := by rw [← h9, Char.ofNat_toNat]
                have hE : escapeChar c = ['\\', 't'] := by rw [← hc]; decide
                rw [hE] at hf ⊢
                simp only [List.length_cons, List.length_nil] at hf
                have hih := ih rest f (by omega)
                simp only [List.cons_append, List.nil_append]
                rw [psb_esc_t, hih, hc]
                rfl
              · by_cases h10 : c.toNat = 10
                · have hc : Char.ofNat 10 = c := by rw [← h10, Char.ofNat_toNat]
                  have hE : escapeChar c = ['\\', 'n'] := by rw [← hc]; decide
                  rw [hE] at hf ⊢
                  simp only [List.length_cons, List.length_nil] at hf
                  have hih := ih rest f (by omega)
                  simp only [List.cons_append, List.nil_append]
                  rw [psb_esc_n, hih, hc]
                  rfl
                · by_cases h12 : c.toNat = 12
                  · have hc : Char.ofNat 12 = c := by rw [← h12, Char.ofNat_toNat]
                    have hE : escapeChar c = ['\\', 'f'] := by rw [← hc]; decide
                    rw [hE] at hf ⊢
                    simp only [List.length_cons, List.length_nil] at hf
                    have hih := ih rest f (by omega)
                    simp only [List.cons_append, List.nil_append]
                    rw [psb_esc_f, hih, hc]
                    rfl
                  · by_cases h13 : c.toNat = 13
                    · have hc : Char.ofNat 13 = c := by rw [← h13, Char.ofNat_toNat]
                      have hE : escapeChar c = ['\\', 'r'] := by rw [← hc]; decide
                      rw [hE] at hf ⊢
                      simp only [List.length_cons, List.length_nil] at hf
                      have hih := ih rest f (by omega)
                      simp only [List.cons_append, List.nil_append]
                      rw [psb_esc_r, hih, hc]
                      rfl
                    · by_cases h32 : c.toNat < 32
                      · have hE : escapeChar c = '\\' :: 'u' :: toHex4 c.toNat := by
                          rw [escapeChar]
                          simp only [if_neg hq, if_neg hb, if_neg h8, if_neg h9,
                            if_neg h10, if_neg h12, if_neg h13, if_pos h32]
                        rw [hE] at hf ⊢
                        rw [toHex4] at hf
                        simp only [List.length_cons, List.length_nil] at hf
                        have hih := ih rest f (by omega)
                        simp only [List.cons_append, List.append_assoc]
                        rw [psb_u_single f _ c.toNat (by omega) (by omega), hih,
                          Char.ofNat_toNat]
                        rfl
                      · by_cases h127 : c.toNat < 127
                        · have hE : escapeChar c = [c] := by
                            rw [escapeChar]
                            simp only [if_neg hq, if_neg hb, if_neg h8, if_neg h9,
                              if_neg h10, if_neg h12, if_neg h13, if_neg h32,
                              if_pos h127]
                          rw [hE] at hf ⊢
                          simp only [List.length_cons, List.length_nil] at hf
                          have hih := ih rest f (by omega)
                          simp only [List.cons_append, List.nil_append]
                          rw [psb_raw f _ c hq hb h32, hih]
                          rfl
                        · by_cases hbmp : c.toNat < 65536
                          · have hE : escapeChar c = '\\' :: 'u' :: toHex4 c.toNat := by
                              rw [escapeChar]
                              simp only [if_neg hq, if_neg hb, if_neg h8, if_neg h9,
                                if_neg h10, if_neg h12, if_neg h13, if_neg h32,
                                if_neg h127, if_pos hbmp]
                            have hns : ¬ (55296 ≤ c.toNat ∧ c.toNat ≤ 56319) := by
                              rcases char_valid_range c with h | h <;> omega
                            rw [hE] at hf ⊢
                            rw [toHex4] at hf
                            simp only [List.length_cons, List.length_nil] at hf
                            have hih := ih rest f (by omega)
                            simp only [List.cons_append, List.append_assoc]
                            rw [psb_u_single f _ c.toNat hbmp hns, hih, Char.ofNat_toNat]
                            rfl
                          · have hval : c.toNat < 1114112 := by
                              rcases char_valid_range c with h | h <;> omega
                            have hdiv : (c.toNat - 65536) / 1024 < 1024 :=
                              Nat.div_lt_of_lt_mul (by omega)
                            have hmod : (c.toNat - 65536) % 1024 < 1024 :=
                              Nat.mod_lt _ (by omega)
                            have hE : escapeChar c =
                                '\\' :: 'u' :: toHex4 (55296 + (c.toNat - 65536) / 1024) ++
                                '\\' :: 'u' :: toHex4 (56320 + (c.toNat - 65536) % 1024) := by
                              rw [escapeChar]
                              simp only [if_neg hq, if_neg hb, if_neg h8, if_neg h9,
                                if_neg h10, if_neg h12, if_neg h13, if_neg h32,
                                if_neg h127, if_neg hbmp]
                            rw [hE] at hf ⊢
                            rw [toHex4, toHex4] at hf
                            simp only [List.length_cons, List.length_nil,
                              List.length_append, List.cons_append,
                              List.nil_append] at hf
                            have hih := ih rest f (by omega)
                            simp only [List.cons_append, List.append_assoc]
                            rw [psb_u_pair f _ _ _ (by omega) (by omega)
                              (by omega) (by omega), hih]
                            have harith : 65536 +
                                (55296 + (c.toNat - 65536) / 1024 - 55296) * 1024 +
                                (56320 + (c.toNat - 65536) % 1024 - 56320) = c.toNat := by
                              omega
                            rw [harith, Char.ofNat_toNat]
                            rfl

theorem parseStrBody_full (cs rest : List Char) :
    parseStrBody ((cs.flatMap escapeChar ++ '"' :: rest).length + 1)
      (cs.flatMap escapeChar ++ '"' :: rest) = some (cs, rest) := by
  apply parseStrBody_escape
  rw [List.length_append]
  simp only [List.length_cons]
  omega

theorem skipWs_newline (s : List Char) : skipWs ('\n' :: s) = skipWs s := by
  simp [skipWs, isWsChar]

theorem skipWs_space (s : List Char) : skipWs (' ' :: s) = skipWs s := by
  simp [skipWs, isWsChar]

theorem skipWs_indent (k : Nat) (s : List Char) :
    skipWs (indentC k ++ s) = skipWs s := by
  induction k with
  | zero => simp [indentC]
  | succ m ih =>
      rw [indentC, List.replicate_succ, List.cons_append, skipWs_space]
      exact ih

theorem skipWs_nonws (c : Char) (s : List Char) (h : isWsChar c = false) :
    skipWs (c :: s) = c :: s := by
  simp [skipWs, h]

theorem parseVal_congr (f : Nat) (s1 s2 : List Char) (h : skipWs s1 = skipWs s2) :
    parseVal (f + 1) s1 = parseVal (f + 1) s2 := by
  simp only [parseVal, h]

theorem parseArrRest_congr (f : Nat) (s1 s2 : List Char)
    (h : skipWs s1 = skipWs s2) :
    parseArrRest (f + 1) s1 = parseArrRest (f + 1) s2 := by
  simp only [parseArrRest, h]

theorem parseObjMore_congr (f : Nat) (s1 s2 : List Char)
    (h : skipWs s1 = skipWs s2) :
    parseObjMore (f + 1) s1 = parseObjMore (f + 1) s2 := by
  simp only [parseObjMore, h]

theorem parseArrStart_congr (f : Nat) (s1 s2 : List Char)
    (h : skipWs s1 = skipWs s2) :
    parseArrStart (f + 1) s1 = parseArrStart (f + 1) s2 := by
  simp only [parseArrStart, h]

theorem parseObjStart_congr (f : Nat) (s1 s2 : List Char)
    (h : skipWs s1 = skipWs s2) :
    parseObjStart (f + 1) s1 = parseObjStart (f + 1) s2 := by
  simp only [parseObjStart, h]

/-- Every printed value starts with a non-whitespace character different
from the container-level delimiters. -/
theorem printJson_head (k : Nat) (v : Json) :
    ∃ c cs, printJson k v = c :: cs ∧ isWsChar c = false ∧
      ¬ c = ']' ∧ ¬ c = rbraceC ∧ ¬ c = ',' := by
  cases v with
  | jnull => exact ⟨'n', _, rfl, by decide, by decide, by decide, by decide⟩
  | jbool b =>
      cases b with
      | true => exact ⟨'t', _, rfl, by decide, by decide, by decide, by decide⟩
      | false => exact ⟨'f', _, rfl, by decide, by decide, by decide, by decide⟩
  | jnum n =>
      by_cases hn : n < 0
      · refine ⟨'-', natDigits n.natAbs, ?_, by decide, by decide, by decide, by decide⟩
        simp [printJson, printInt, hn]
      · obtain ⟨⟨c, cs, hcons, _⟩, hdig, _⟩ := natDigits_spec n.natAbs
        have hcd : digitB c = true := hdig c (by rw [hcons]; simp)
        refine ⟨c, cs, ?_, ?_, ?_, ?_, ?_⟩
        · simp [printJson, printInt, hn, hcons]
        · cases hw : isWsChar c
          · rfl
          · exfalso
            simp only [isWsChar, Bool.or_eq_true, decide_eq_true_eq] at hw
            rcases hw with ((h | h) | h) | h <;> subst h <;>
              exact absurd hcd (by decide)
        · intro h
          rw [h] at hcd
          exact absurd hcd (by decide)
        · intro h
          rw [h] at hcd
          exact absurd hcd (by decide)
        · intro h
          rw [h] at hcd
          exact absurd hcd (by decide)
  | jstr s => exact ⟨'"', _, rfl, by decide, by decide, by decide, by decide⟩
  | jarr xs =>
      cases xs with
      | nil => exact ⟨'[', _, rfl, by decide, by decide, by decide, by decide⟩
      | cons h t => exact ⟨'[', _, rfl, by decide, by decide, by decide, by decide⟩
  | jobj o =>
      cases o with
      | nil => exact ⟨lbraceC, _, rfl, by decide, by decide, by decide, by decide⟩
      | cons kk vv t =>
          exact ⟨lbraceC, _, rfl, by decide, by decide, by decide, by decide⟩

theorem objConcat_nil (o : JsonObj) : objConcat o .nil = o := by
  induction o using jsonObjStructInd with
  | hnil => rfl
  | hcons k v t ih => rw [objConcat, ih]

theorem objSet_fresh (acc : JsonObj) (k : String) (v : Json)
    (h : objGet acc k = none) :
    objSet acc k v = objConcat acc (.cons k v .nil) := by
  induction acc using jsonObjStructInd with
  | hnil => rfl
  | hcons k' v' t ih =>
      rw [objGet] at h
      by_cases hk : k' = k
      · rw [if_pos hk] at h
        exact absurd h (by simp)
      · rw [if_neg hk] at h
        rw [objSet, if_neg hk, objConcat, ih h]

theorem objConcat_assoc (a b c : JsonObj) :
    objConcat (objConcat a b) c = objConcat a (objConcat b c) := by
  induction a using jsonObjStructInd with
  | hnil => rfl
  | hcons k v t ih => rw [objConcat, objConcat, objConcat, ih]

theorem objGet_objConcat_left (a b : JsonObj) (k : String)
    (h : objGet a k = none) : objGet (objConcat a b) k = objGet b k := by
  induction a using jsonObjStructInd with
  | hnil => rfl
  | hcons k' v' t ih =>
      rw [objGet] at h
      by_cases hk : k' = k
      · rw [if_pos hk] at h
        exact absurd h (by simp)
      · rw [if_neg hk] at h
        rw [objConcat, objGet, if_neg hk, ih h]

theorem objFold_concat (o : JsonObj) : ∀ acc : JsonObj,
    wfObj o = true →
    (∀ k, (objGet o k).isSome → objGet acc k = none) →
    objFold acc o = objConcat acc o := by
  induction o using jsonObjStructInd with
  | hnil =>
      intro acc _ _
      rw [objFold, objConcat_nil]
  | hcons k v t ih =>
      intro acc hwf hdisj
      simp only [wfObj, Bool.and_eq_true, Option.isNone_iff_eq_none] at hwf
      rw [objFold]
      have hk : objGet acc k = none := by
        apply hdisj
        rw [objGet, if_pos rfl]
        rfl
      rw [objSet_fresh acc k v hk]
      rw [ih (objConcat acc (.cons k v .nil)) hwf.2 ?_]
      · rw [objConcat_assoc]
        rfl
      · intro m hm
        have hmk : ¬ k = m := by
          intro he
          subst he
          rw [hwf.1.1] at hm
          exact absurd hm (by simp)
        have hacc : objGet acc m = none := by
          apply hdisj
          rw [objGet, if_neg hmk]
          exact hm
        rw [objGet_objConcat_left acc _ m hacc, objGet, if_neg hmk, objGet]

/-- dict(pairs) over a duplicate-free pair list reproduces the list. -/
theorem dictOf_wf (o : JsonObj) (hwf : wfObj o = true) : dictOf o = o := by
  rw [dictOf, objFold_concat o .nil hwf (fun k _ => rfl)]
  rfl

theorem jfuelV_pos (v : Json) : 1 ≤ jfuelV v := by
  cases v <;> simp [jfuelV] <;> omega

theorem jfuelL_pos (xs : JsonList) : 1 ≤ jfuelL xs := by
  cases xs <;> simp [jfuelL] <;> omega

theorem jfuelO_pos (o : JsonObj) : 1 ≤ jfuelO o := by
  cases o <;> simp [jfuelO] <;> omega

theorem numDelim_of_head (c : Char) (cs : List Char) (h1 : digitB c = false)
    (h2 : ¬ c = '.') (h3 : ¬ c = 'e') (h4 : ¬ c = 'E') : NumDelim (c :: cs) := by
  intro x hx
  simp only [List.head?_cons, Option.some.injEq] at hx
  subst hx
  exact ⟨h1, h2, h3, h4⟩

theorem numDelim_listRest (k : Nat) (xs : JsonList) (X : List Char) :
    NumDelim (printListRest k xs ++ '\n' :: X) := by
  cases xs with
  | nil =>
      rw [printListRest, List.nil_append]
      exact numDelim_of_head _ _ (by decide) (by decide) (by decide) (by decide)
  | cons h t =>
      rw [printListRest]
      simp only [List.cons_append]
      exact numDelim_of_head _ _ (by decide) (by decide) (by decide) (by decide)

theorem numDelim_objRest (k : Nat) (o : JsonObj) (X : List Char) :
    NumDelim (printObjRest k o ++ '\n' :: X) := by
  cases o with
  | nil =>
      rw [printObjRest, List.nil_append]
      exact numDelim_of_head _ _ (by decide) (by decide) (by decide) (by decide)
  | cons kk vv t =>
      rw [printObjRest]
      simp only [List.cons_append]
      exact numDelim_of_head _ _ (by decide) (by decide) (by decide) (by decide)

theorem parseVal_step_other (f : Nat) (c : Char) (cs : List Char)
    (h1 : ¬ c = '"') (h2 : ¬ c = lbraceC) (h3 : ¬ c = '[') (h4 : ¬ c = 't')
    (h5 : ¬ c = 'f') (h6 : ¬ c = 'n') (h7 : isWsChar c = false) :
    parseVal (f + 1) (c :: cs) = parseNum (c :: cs) := by
  simp only [parseVal, skipWs_nonws c cs h7]
  rw [if_neg h1, if_neg h2, if_neg h3]
  split
  · rename_i heq
    injection heq with hc _
    exact absurd hc h4
  · rename_i heq
    injection heq with hc _
    exact absurd hc h5
  · rename_i heq
    injection heq with hc _
    exact absurd hc h6
  · rfl

theorem parseArrStart_cons (g : Nat) (c : Char) (cs : List Char) (v : Json)
    (t : JsonList) (r r2 : List Char) (hne : ¬ c = ']') (hw : isWsChar c = false)
    (hv : parseVal g (c :: cs) = some (v, r))
    (ht : parseArrRest g r = some (t, r2)) :
    parseArrStart (g + 1) (c :: cs) = some (.jarr (.cons v t), r2) := by
  simp only [parseArrStart, skipWs_nonws c cs hw]
  split
  · rename_i heq
    injection heq with hc _
    exact absurd hc hne
  · simp only [hv, ht]

theorem parseArrRest_close (g : Nat) (r : List Char) :
    parseArrRest (g + 1) (']' :: r) = some (.nil, r) := by
  simp [parseArrRest, skipWs, isWsChar]

theorem parseArrRest_comma (g : Nat) (r : List Char) (v : Json) (t : JsonList)
    (r2 r3 : List Char) (hv : parseVal g r = some (v, r2))
    (ht : parseArrRest g r2 = some (t, r3)) :
    parseArrRest (g + 1) (',' :: r) = some (.cons v t, r3) := by
  simp only [parseArrRest, skipWs_nonws ',' r (by decide)]
  simp only [hv, ht]

theorem parseObjStart_pair (g : Nat) (key : List Char) (Y : List Char) (v : Json)
    (t : JsonObj) (r3 r4 : List Char)
    (hv : parseVal g (' ' :: Y) = some (v, r3))
    (ht : parseObjMore g r3 = some (t, r4)) :
    parseObjStart (g + 1) ('"' :: (key.flatMap escapeChar ++ '"' :: (':' :: (' ' :: Y)))) =
      some (.jobj (dictOf (.cons (String.mk key) v t)), r4) := by
  simp only [parseObjStart,
    skipWs_nonws '"' (key.flatMap escapeChar ++ '"' :: (':' :: (' ' :: Y))) (by decide)]
  rw [if_neg (by decide), if_pos trivial]
  rw [parseStrBody_full key (':' :: (' ' :: Y))]
  simp only [skipWs_nonws ':' _ (by decide)]
  simp only [hv, ht]

theorem parseObjMore_close (g : Nat) (r : List Char) :
    parseObjMore (g + 1) (rbraceC :: r) = some (.nil, r) := by
  simp only [parseObjMore, skipWs_nonws rbraceC r (by decide)]
  rw [if_pos trivial]

theorem parseObjMore_comma (g : Nat) (r0 : List Char) (key : List Char)
    (Y : List Char) (v : Json) (t : JsonObj) (r3 r4 : List Char)
    (hr : skipWs r0 = '"' :: (key.flatMap escapeChar ++ '"' :: (':' :: (' ' :: Y))))
    (hv : parseVal g (' ' :: Y) = some (v, r3))
    (ht : parseObjMore g r3 = some (t, r4)) :
    parseObjMore (g + 1) (',' :: r0) = some (.cons (String.mk key) v t, r4) := by
  simp only [parseObjMore, skipWs_nonws ',' r0 (by decide)]
  rw [if_neg (by decide), if_pos trivial, hr]
  simp only [parseStrBody_full key (':' :: (' ' :: Y))]
  simp only [skipWs_nonws ':' _ (by decide)]
  simp only [hv, ht]

theorem parseComplete : ∀ N : Nat,
    (∀ v, jfuelV v ≤ N → CompV v) ∧
    (∀ xs, jfuelL xs ≤ N → CompL xs) ∧
    (∀ o, jfuelO o ≤ N → CompO o) := by
  intro N
  induction N with
  | zero =>
      refine ⟨fun v hv => absurd hv (by have := jfuelV_pos v; omega),
        fun xs hxs => absurd hxs (by have := jfuelL_pos xs; omega),
        fun o ho => absurd ho (by have := jfuelO_pos o; omega)⟩
  | succ N ih =>
      obtain ⟨ihV, ihL, ihO⟩ := ih
      refine ⟨?_, ?_, ?_⟩
      · intro v hv hwf k fuel rest hfuel hdelim
        cases v with
        | jnull =>
            have h1 := jfuelV_pos (Json.jnull)
            rw [jfuelV] at hfuel
            cases fuel with
            | zero => omega
            | succ f =>
                simp only [printJson, List.cons_append, List.nil_append]
                simp only [parseVal,
                  skipWs_nonws 'n' ('u' :: 'l' :: 'l' :: rest) (by decide)]
                rw [if_neg (by decide), if_neg (by decide), if_neg (by decide)]
        | jbool b =>
            rw [jfuelV] at hfuel
            cases fuel with
            | zero => omega
            | succ f =>
                cases b with
                | true =>
                    simp only [printJson, List.cons_append, List.nil_append]
                    simp only [parseVal,
                      skipWs_nonws 't' ('r' :: 'u' :: 'e' :: rest) (by decide)]
                    rw [if_neg (by decide), if_neg (by decide), if_neg (by decide)]
                | false =>
                    simp only [printJson, List.cons_append, List.nil_append]
                    simp only [parseVal,
                      skipWs_nonws 'f' ('a' :: 'l' :: 's' :: 'e' :: rest) (by decide)]
                    rw [if_neg (by decide), if_neg (by decide), if_neg (by decide)]
        | jnum n =>
            rw [jfuelV] at hfuel
            cases fuel with
            | zero => omega
            | succ f =>
                obtain ⟨⟨c, cs, hcons, _⟩, hdig, _⟩ := natDigits_spec n.natAbs
                by_cases hn : n < 0
                · have hpr : printJson k (Json.jnum n) = '-' :: natDigits n.natAbs := by
                    simp [printJson, printInt, hn]
                  rw [hpr, List.cons_append]
                  rw [parseVal_step_other f '-' (natDigits n.natAbs ++ rest)
                    (by decide) (by decide) (by decide) (by decide) (by decide)
                    (by decide) (by decide)]
                  rw [show ('-' :: (natDigits n.natAbs ++ rest)) =
                    (('-' :: natDigits n.natAbs) ++ rest) from rfl]
                  rw [show ('-' :: natDigits n.natAbs) = printInt n by
                    simp [printInt, hn]]
                  exact parseNum_printInt n rest hdelim
                · have hpr : printJson k (Json.jnum n) = natDigits n.natAbs := by
                    simp [printJson, printInt, hn]
                  have hcd : digitB c = true := hdig c (by rw [hcons]; simp)
                  rw [hpr, hcons, List.cons_append]
                  rw [parseVal_step_other f c (cs ++ rest)
                    (fun h => absurd (h ▸ hcd) (by decide))
                    (fun h => absurd (h ▸ hcd) (by decide))
                    (fun h => absurd (h ▸ hcd) (by decide))
                    (fun h => absurd (h ▸ hcd) (by decide))
                    (fun h => absurd (h ▸ hcd) (by decide))
                    (fun h => absurd (h ▸ hcd) (by decide))
                    (by
                      cases hw : isWsChar c
                      · rfl
                      · exfalso
                        simp only [isWsChar, Bool.or_eq_true,
                          decide_eq_true_eq] at hw
                        rcases hw with ((h | h) | h) | h <;> subst h <;>
                          exact absurd hcd (by decide))]
                  rw [show (c :: (cs ++ rest)) = ((c :: cs) ++ rest) from rfl,
                    ← hcons]
                  rw [show natDigits n.natAbs = printInt n by simp [printInt, hn]]
                  exact parseNum_printInt n rest hdelim
        | jstr s =>
            rw [jfuelV] at hfuel
            cases fuel with
            | zero => omega
            | succ f =>
                simp only [printJson, printStr, List.cons_append,
                  List.append_assoc, List.singleton_append, List.nil_append]
                simp only [parseVal,
                  skipWs_nonws '"' (s.data.flatMap escapeChar ++ '"' :: rest)
                    (by decide)]
                rw [if_pos trivial]
                rw [parseStrBody_full s.data rest]
                rfl
        | jarr xs =>
            cases xs with
            | nil =>
                rw [jfuelV, jfuelL] at hfuel
                cases fuel with
                | zero => omega
                | succ f =>
                    cases f with
                    | zero => omega
                    | succ g =>
                        simp only [printJson, List.cons_append, List.nil_append]
                        simp only [parseVal,
                          skipWs_nonws '[' (']' :: rest) (by decide)]
                        rw [if_pos trivial, if_neg (by decide), if_neg (by decide)]
                        simp only [parseArrStart,
                          skipWs_nonws ']' rest (by decide)]
            | cons h t =>
                rw [jfuelV, jfuelL] at hfuel
                rw [jfuelV, jfuelL] at hv
                rw [wfJson, wfList, Bool.and_eq_true] at hwf
                cases fuel with
                | zero => omega
                | succ f =>
                    cases f with
                    | zero => omega
                    | succ g =>
                        simp only [printJson, printListRest, List.cons_append,
                          List.append_assoc, List.singleton_append,
                          List.nil_append]
                        simp only [parseVal,
                          skipWs_nonws '[' _ (by decide)]
                        rw [if_pos trivial, if_neg (by decide), if_neg (by decide)]
                        obtain ⟨c, cs, hc, hcw, hc1, hc2, hc3⟩ :=
                          printJson_head (k + 2) h
                        have hcongr : parseArrStart (g + 1)
                            ('\n' :: (indentC (k + 2) ++ (printJson (k + 2) h ++
                              (printListRest (k + 2) t ++
                                '\n' :: (indentC k ++ ']' :: rest))))) =
                            parseArrStart (g + 1)
                              (printJson (k + 2) h ++
                                (printListRest (k + 2) t ++
                                  '\n' :: (indentC k ++ ']' :: rest))) := by
                          apply parseArrStart_congr
                          rw [skipWs_newline, skipWs_indent]
                        rw [hcongr]
                        have hih := ihV h (by omega) hwf.1 (k + 2) g
                          (printListRest (k + 2) t ++
                            '\n' :: (indentC k ++ ']' :: rest))
                          (by omega)
                          (by
                            rw [show (printListRest (k + 2) t ++
                              '\n' :: (indentC k ++ ']' :: rest)) =
                              (printListRest (k + 2) t ++
                                '\n' :: (indentC k ++ ']' :: rest)) from rfl]
                            exact numDelim_listRest (k + 2) t
                              (indentC k ++ ']' :: rest))
                        have hihL := ihL t (by omega) hwf.2 k g rest (by omega)
                        rw [hc] at hih
                        rw [hc, List.cons_append]
                        exact parseArrStart_cons g c
                          (cs ++ (printListRest (k + 2) t ++
                            '\n' :: (indentC k ++ ']' :: rest)))
                          h t _ rest hc1 hcw
                          (by rw [← List.cons_append]; exact hih) hihL
        | jobj o =>
            cases o with
            | nil =>
                rw [jfuelV, jfuelO] at hfuel
                cases fuel with
                | zero => omega
                | succ f =>
                    cases f with
                    | zero => omega
                    | succ g =>
                        simp only [printJson, List.cons_append, List.nil_append]
                        simp only [parseVal,
                          skipWs_nonws lbraceC (rbraceC :: rest) (by decide)]
                        rw [if_neg (by decide), if_pos trivial]
                        simp only [parseObjStart,
                          skipWs_nonws rbraceC rest (by decide)]
                        rw [if_pos trivial]
            | cons key v t =>
                rw [jfuelV, jfuelO] at hfuel
                rw [jfuelV, jfuelO] at hv
                rw [wfJson, wfObj, Bool.and_eq_true, Bool.and_eq_true] at hwf
                cases fuel with
                | zero => omega
                | succ f =>
                    cases f with
                    | zero => omega
                    | succ g =>
                        simp only [printJson, printStr, List.cons_append,
                          List.append_assoc, List.singleton_append,
                          List.nil_append]
                        simp only [parseVal,
                          skipWs_nonws lbraceC _ (by decide)]
                        rw [if_neg (by decide), if_pos trivial]
                        have hcongr : parseObjStart (g + 1)
                            ('\n' :: (indentC (k + 2) ++
                              ('"' :: (key.data.flatMap escapeChar ++
                                '"' :: (':' :: (' ' :: (printJson (k + 2) v ++
                                  (printObjRest (k + 2) t ++
                                    '\n' :: (indentC k ++ rbraceC :: rest))))))))) =
                            parseObjStart (g + 1)
                              ('"' :: (key.data.flatMap escapeChar ++
                                '"' :: (':' :: (' ' :: (printJson (k + 2) v ++
                                  (printObjRest (k + 2) t ++
                                    '\n' :: (indentC k ++ rbraceC :: rest))))))) := by
                          apply parseObjStart_congr
                          rw [skipWs_newline, skipWs_indent]
                        rw [hcongr]
                        have hih := ihV v (by omega) hwf.1.2 (k + 2) g
                          (printObjRest (k + 2) t ++
                            '\n' :: (indentC k ++ rbraceC :: rest))
                          (by omega)
                          (numDelim_objRest (k + 2) t (indentC k ++ rbraceC :: rest))
                        have hihO := ihO t (by omega) hwf.2 k g rest (by omega)
                        have hvstep : parseVal g
                            (' ' :: (printJson (k + 2) v ++
                              (printObjRest (k + 2) t ++
                                '\n' :: (indentC k ++ rbraceC :: rest)))) =
                            some (v, printObjRest (k + 2) t ++
                              '\n' :: (indentC k ++ rbraceC :: rest)) := by
                          cases g with
                          | zero =>
                              exfalso
                              have := jfuelV_pos v
                              omega
                          | succ g2 =>
                              rw [parseVal_congr g2 _ _ (by rw [skipWs_space])]
                              exact hih
                        rw [parseObjStart_pair g key.data _ v t _ rest hvstep hihO]
                        rw [show String.mk key.data = key from rfl]
                        rw [dictOf_wf _ (by
                          rw [wfObj, Bool.and_eq_true, Bool.and_eq_true]
                          exact ⟨⟨hwf.1.1, hwf.1.2⟩, hwf.2⟩)]
      · intro xs hxs hwf k fuel rest hfuel
        cases xs with
        | nil =>
            rw [jfuelL] at hfuel
            cases fuel with
            | zero => omega
            | succ g =>
                rw [printListRest, List.nil_append]
                simp only [parseArrRest, skipWs_newline, skipWs_indent,
                  skipWs_nonws ']' rest (by decide)]
        | cons h t =>
            rw [jfuelL] at hfuel
            rw [jfuelL] at hxs
            rw [wfList, Bool.and_eq_true] at hwf
            cases fuel with
            | zero => omega
            | succ g =>
                rw [printListRest]
                simp only [List.cons_append, List.append_assoc]
                have hih := ihV h (by omega) hwf.1 (k + 2) g
                  (printListRest (k + 2) t ++ '\n' :: (indentC k ++ ']' :: rest))
                  (by omega)
                  (numDelim_listRest (k + 2) t (indentC k ++ ']' :: rest))
                have hihL := ihL t (by omega) hwf.2 k g rest (by omega)
                apply parseArrRest_comma g _ h t _ rest _ hihL
                cases g with
                | zero =>
                    exfalso
                    have := jfuelV_pos h
                    omega
                | succ g2 =>
                    have hcongr2 : parseVal (g2 + 1)
                        ('\n' :: (indentC (k + 2) ++ (printJson (k + 2) h ++
                          (printListRest (k + 2) t ++
                            '\n' :: (indentC k ++ ']' :: rest))))) =
                        parseVal (g2 + 1)
                          (printJson (k + 2) h ++
                            (printListRest (k + 2) t ++
                              '\n' :: (indentC k ++ ']' :: rest))) :=
                      parseVal_congr g2 _ _ (by rw [skipWs_newline, skipWs_indent])
                    rw [hcongr2]
                    exact hih
      · intro o ho hwf k fuel rest hfuel
        cases o with
        | nil =>
            rw [jfuelO] at hfuel
            cases fuel with
            | zero => omega
            | succ g =>
                rw [printObjRest, List.nil_append]
                have : skipWs ('\n' :: (indentC k ++ rbraceC :: rest)) =
                    rbraceC :: rest := by
                  rw [skipWs_newline, skipWs_indent,
                    skipWs_nonws rbraceC rest (by decide)]
                simp only [parseObjMore, this]
                rw [if_pos trivial]
        | cons key v t =>
            rw [jfuelO] at hfuel
            rw [jfuelO] at ho
            rw [wfObj, Bool.and_eq_true, Bool.and_eq_true] at hwf
            cases fuel with
            | zero => omega
            | succ g =>
                rw [printObjRest, printStr]
                simp only [List.cons_append, List.append_assoc,
                  List.singleton_append, List.nil_append]
                have hih := ihV v (by omega) hwf.1.2 (k + 2) g
                  (printObjRest (k + 2) t ++ '\n' :: (indentC k ++ rbraceC :: rest))
                  (by omega)
                  (numDelim_objRest (k + 2) t (indentC k ++ rbraceC :: rest))
                have hihO := ihO t (by omega) hwf.2 k g rest (by omega)
                have hvstep : parseVal g
                    (' ' :: (printJson (k + 2) v ++
                      (printObjRest (k + 2) t ++
                        '\n' :: (indentC k ++ rbraceC :: rest)))) =
                    some (v, printObjRest (k + 2) t ++
                      '\n' :: (indentC k ++ rbraceC :: rest)) := by
                  cases g with
                  | zero =>
                      exfalso
                      have := jfuelV_pos v
                      omega
                  | succ g2 =>
                      rw [parseVal_congr g2 _ _ (by rw [skipWs_space])]
                      exact hih
                rw [parseObjMore_comma g _ key.data _ v t _ rest
                  (by rw [skipWs_newline, skipWs_indent,
                    skipWs_nonws '"' _ (by decide)]) hvstep hihO]

theorem jfuelBound : ∀ N : Nat,
    (∀ v, jfuelV v ≤ N → ∀ k, jfuelV v ≤ 3 * (printJson k v).length) ∧
    (∀ xs, jfuelL xs ≤ N → ∀ k, jfuelL xs ≤ 3 * (printListRest k xs).length + 1) ∧
    (∀ o, jfuelO o ≤ N → ∀ k, jfuelO o ≤ 3 * (printObjRest k o).length + 1) := by
  intro N
  induction N with
  | zero =>
      refine ⟨fun v hv => absurd hv (by have := jfuelV_pos v; omega),
        fun xs hxs => absurd hxs (by have := jfuelL_pos xs; omega),
        fun o ho => absurd ho (by have := jfuelO_pos o; omega)⟩
  | succ N ih =>
      obtain ⟨ihV, ihL, ihO⟩ := ih
      refine ⟨?_, ?_, ?_⟩
      · intro v hv k
        cases v with
        | jnull => simp [jfuelV, printJson]
        | jbool b => cases b <;> simp [jfuelV, printJson]
        | jnum n =>
            obtain ⟨⟨c, cs, hcons, _⟩, _, _⟩ := natDigits_spec n.natAbs
            rw [jfuelV, printJson]
            by_cases hn : n < 0 <;>
              simp [printInt, hn, hcons] <;> omega
        | jstr s =>
            rw [jfuelV, printJson, printStr]
            simp
            omega
        | jarr xs =>
            cases xs with
            | nil => simp [jfuelV, jfuelL, printJson]
            | cons h t =>
                rw [jfuelV, jfuelL] at hv ⊢
                have h1 := ihV h (by omega) (k + 2)
                have h2 := ihL t (by omega) (k + 2)
                rw [printJson]
                simp only [List.length_append, List.length_cons, List.length_nil,
                  indentC, List.length_replicate]
                omega
        | jobj o =>
            cases o with
            | nil => simp [jfuelV, jfuelO, printJson]
            | cons key v t =>
                rw [jfuelV, jfuelO] at hv ⊢
                have h1 := ihV v (by omega) (k + 2)
                have h2 := ihO t (by omega) (k + 2)
                rw [printJson, printStr]
                simp only [List.length_append, List.length_cons, List.length_nil,
                  indentC, List.length_replicate]
                omega
      · intro xs hxs k
        cases xs with
        | nil => simp [jfuelL, printListRest]
        | cons h t =>
            rw [jfuelL] at hxs ⊢
            have h1 := ihV h (by omega) k
            have h2 := ihL t (by omega) k
            rw [printListRest]
            simp only [List.length_append, List.length_cons, indentC,
              List.length_replicate]
            omega
      · intro o ho k
        cases o with
        | nil => simp [jfuelO, printObjRest]
        | cons key v t =>
            rw [jfuelO] at ho ⊢
            have h1 := ihV v (by omega) k
            have h2 := ihO t (by omega) k
            rw [printObjRest, printStr]
            simp only [List.length_append, List.length_cons, indentC,
              List.length_replicate]
            omega

/-- Round trip: parsing back the output of json.dumps(v, indent=2)
recovers v, for any value a Python program can produce (objects have
duplicate-free keys). -/
theorem parseJson_dumps (v : Json) (hwf : wfJson v = true) :
    parseJson (jsonDumps v) = some v := by
  rw [jsonDumps, parseJson]
  have hdata : (String.mk (printJson 0 v)).data = printJson 0 v := rfl
  rw [hdata]
  have hb := (jfuelBound (jfuelV v)).1 v le_rfl 0
  have hcomp := (parseComplete (jfuelV v)).1 v le_rfl hwf 0
    (3 * (printJson 0 v).length + 8) []
    (by omega)
    (by intro c hc; simp at hc)
  rw [List.append_nil] at hcomp
  rw [hcomp]
  simp [skipWs]

theorem wfObj_objFold (acc : JsonObj) (o : JsonObj)
    (hacc : wfObj acc = true) (ho : valuesWf o = true) :
    wfObj (objFold acc o) = true := by
  induction o using jsonObjStructInd generalizing acc with
  | hnil => simpa [objFold] using hacc
  | hcons k v t iht =>
      rw [valuesWf, Bool.and_eq_true] at ho
      rw [objFold]
      exact iht _ (wfObj_objSet acc k v hacc ho.1) ho.2

theorem wfObj_dictOf (o : JsonObj) (ho : valuesWf o = true) :
    wfJson (Json.jobj (dictOf o)) = true := by
  rw [wfJson, dictOf]
  exact wfObj_objFold .nil o rfl ho

theorem parseNum_shape (s : List Char) (v : Json) (r : List Char)
    (h : parseNum s = some (v, r)) : ∃ n : Int, v = Json.jnum n := by
  have hnt : ∀ (m : Int) (t : List Char) (v2 : Json) (r2 : List Char),
      numTail m t = some (v2, r2) → ∃ n : Int, v2 = Json.jnum n := by
    intro m t v2 r2 h2
    cases t with
    | nil =>
        rw [numTail] at h2
        injection h2 with h2
        injection h2 with h2 _
        exact ⟨m, h2.symm⟩
    | cons c cs =>
        rw [numTail] at h2
        split at h2
        · exact absurd h2 (by simp)
        · injection h2 with h2; injection h2 with h2 _; exact ⟨m, h2.symm⟩
  rcases s with _ | ⟨c, cs⟩
  · exact absurd h (by simp [parseNum])
  · rw [parseNum] at h
    split at h
    · rcases hpa : parseIntAbs cs with _ | ⟨m, r2⟩ <;> rw [hpa] at h
      · exact absurd h (by simp)
      · exact hnt _ _ _ _ h
    · rcases hpa : parseIntAbs (c :: cs) with _ | ⟨m, r2⟩ <;> rw [hpa] at h
      · exact absurd h (by simp)
      · exact hnt _ _ _ _ h

theorem parseSound : ∀ fuel : Nat,
    (∀ s v r, parseVal fuel s = some (v, r) → wfJson v = true) ∧
    (∀ s v r, parseArrStart fuel s = some (v, r) → wfJson v = true) ∧
    (∀ s xs r, parseArrRest fuel s = some (xs, r) → wfList xs = true) ∧
    (∀ s v r, parseObjStart fuel s = some (v, r) → wfJson v = true) ∧
    (∀ s o r, parseObjMore fuel s = some (o, r) → valuesWf o = true) := by
  intro fuel
  induction fuel with
  | zero =>
      refine ⟨?_, ?_, ?_, ?_, ?_⟩ <;> intro s a r h <;>
        first
          | exact absurd h (by rw [parseVal]; simp)
          | exact absurd h (by rw [parseArrStart]; simp)
          | exact absurd h (by rw [parseArrRest]; simp)
          | exact absurd h (by rw [parseObjStart]; simp)
          | exact absurd h (by rw [parseObjMore]; simp)
  | succ f ih =>
      obtain ⟨ihV, ihA, ihR, ihO, ihM⟩ := ih
      refine ⟨?_, ?_, ?_, ?_, ?_⟩
      · -- parseVal
        intro s v r h
        rw [parseVal] at h
        split at h
        · exact absurd h (by simp)
        · split at h
          · -- string
            rw [Option.map_eq_some'] at h
            obtain ⟨⟨k, r2⟩, hps, hfk⟩ := h
            injection hfk with h1 h2
            rw [← h1]
            rfl
          · split at h
            · exact ihO _ _ _ h
            · split at h
              · exact ihA _ _ _ h
              · split at h
                · injection h with h
                  injection h with h1 h2
                  rw [← h1]
                  rfl
                · injection h with h
                  injection h with h1 h2
                  rw [← h1]
                  rfl
                · injection h with h
                  injection h with h1 h2
                  rw [← h1]
                  rfl
                · obtain ⟨n, hn⟩ := parseNum_shape _ _ _ h
                  rw [hn]
                  rfl
      · -- parseArrStart
        intro s v r h
        rw [parseArrStart] at h
        split at h
        · injection h with h
          injection h with h1 h2
          rw [← h1]
          rfl
        · split at h
          · exact absurd h (by simp)
          · rename_i v1 r1 hv1
            split at h
            · exact absurd h (by simp)
            · rename_i t r2 ht
              injection h with h
              injection h with h1 h2
              rw [← h1, wfJson, wfList, Bool.and_eq_true]
              exact ⟨ihV _ _ _ hv1, ihR _ _ _ ht⟩
      · -- parseArrRest
        intro s xs r h
        rw [parseArrRest] at h
        split at h
        · injection h with h
          injection h with h1 h2
          rw [← h1]
          rfl
        · split at h
          · exact absurd h (by simp)
          · rename_i v1 r2 hv1
            split at h
            · exact absurd h (by simp)
            · rename_i t r3 ht
              injection h with h
              injection h with h1 h2
              rw [← h1, wfList, Bool.and_eq_true]
              exact ⟨ihV _ _ _ hv1, ihR _ _ _ ht⟩
        · exact absurd h (by simp)
      · -- parseObjStart
        intro s v r h
        rw [parseObjStart] at h
        split at h
        · exact absurd h (by simp)
        · split at h
          · injection h with h
            injection h with h1 h2
            rw [← h1]
            rfl
          · split at h
            · split at h
              · exact absurd h (by simp)
              · split at h
                · split at h
                  · exact absurd h (by simp)
                  · rename_i v1 r3 hv1
                    split at h
                    · exact absurd h (by simp)
                    · rename_i t r4 ht
                      injection h with h
                      injection h with h1 h2
                      rw [← h1]
                      refine wfObj_dictOf _ ?_
                      rw [valuesWf, Bool.and_eq_true]
                      exact ⟨ihV _ _ _ hv1, ihM _ _ _ ht⟩
                · exact absurd h (by simp)
            · exact absurd h (by simp)
      · -- parseObjMore
        intro s o r h
        rw [parseObjMore] at h
        split at h
        · exact absurd h (by simp)
        · split at h
          · injection h with h
            injection h with h1 h2
            rw [← h1]
            rfl
          · split at h
            · split at h
              · split at h
                · exact absurd h (by simp)
                · split at h
                  · split at h
                    · exact absurd h (by simp)
                    · rename_i v1 r4 hv1
                      split at h
                      · exact absurd h (by simp)
                      · rename_i t r5 ht
                        injection h with h
                        injection h with h1 h2
                        rw [← h1, valuesWf, Bool.and_eq_true]
                        exact ⟨ihV _ _ _ hv1, ihM _ _ _ ht⟩
                  · exact absurd h (by simp)
              · exact absurd h (by simp)
            · exact absurd h (by simp)

theorem parseJson_sound (s : String) (v : Json) (h : parseJson s = some v) :
    wfJson v = true := by
  rw [parseJson] at h
  split at h
  · rename_i v1 rest hpv
    split at h
    · injection h with h
      rw [← h]
      exact (parseSound _).1 _ _ _ hpv
    · exact absurd h (by simp)
  · exact absurd h (by simp)

theorem fsGet_fsSet_self (fs : Fs) (path content : String) :
    fsGet (fsSet fs path content) path = some content := by
  induction fs with
  | nil => simp [fsSet, fsGet]
  | cons pc rest ih =>
      obtain ⟨p, c⟩ := pc
      by_cases h : p = path
      · simp [fsSet, h, fsGet]
      · simp [fsSet, h, fsGet, ih]

theorem fsGet_fsSet_ne (fs : Fs) (path path2 content : String)
    (h : ¬ path2 = path) :
    fsGet (fsSet fs path content) path2 = fsGet fs path2 := by
  induction fs with
  | nil => simp [fsSet, fsGet, Ne.symm h]
  | cons pc rest ih =>
      obtain ⟨p, c⟩ := pc
      by_cases hp : p = path
      · subst hp
        simp only [fsSet, if_pos rfl, fsGet]
        rw [if_neg (fun hh => h hh.symm), if_neg (fun hh => h hh.symm)]
      · simp [fsSet, hp, fsGet, ih]

/-- Whatever the on-disk state, load_contexts returns a well-formed
value (every object it can return has duplicate-free keys). -/
theorem load_wf (w : String) (fs : Fs) :
    wfJson (load_contexts w fs) = true := by
  rw [load_contexts]
  split
  · rfl
  · split
    · rfl
    · split
      · rfl
      · rename_i content v hp
        exact parseJson_sound _ _ hp

theorem objGet_wf (kvs : JsonObj) (k : String) (v : Json)
    (h1 : wfObj kvs = true) (h2 : objGet kvs k = some v) :
    wfJson v = true := by
  induction kvs using jsonObjStructInd with
  | hnil => exact absurd h2 (by simp [objGet])
  | hcons k' v' t ih =>
      simp only [wfObj, Bool.and_eq_true] at h1
      rw [objGet] at h2
      by_cases hk : k' = k
      · rw [if_pos hk] at h2
        injection h2 with h2
        rw [← h2]
        exact h1.1.2
      · rw [if_neg hk] at h2
        exact ih h1.2 h2

/-- Loading a tenant document right after writing json.dumps(v) to it
recovers v. -/
theorem load_fsSet (w : String) (fs : Fs) (v : Json)
    (hw : ¬ w = "") (hv : wfJson v = true) :
    load_contexts w (fsSet fs (get_user_file_path w) (jsonDumps v)) = v := by
  rw [load_contexts, if_neg hw]
  simp only [fsGet_fsSet_self, parseJson_dumps _ hv]

/-- save_context on a dict record over a tenant whose stored collection
loads as a dict: the write goes through, and loading the tenant document
afterwards yields the old collection with the record (stamped with
last_updated = now) installed under the name. -/
theorem get_after_save (w n now : String) (dkvs ckvs : JsonObj) (fs : Fs)
    (hw : ¬ w = "") (hld : load_contexts w fs = Json.jobj ckvs)
    (hdw : wfObj dkvs = true) :
    save_context n (Json.jobj dkvs) w now fs =
      Except.ok (fsSet fs (get_user_file_path w)
        (jsonDumps (Json.jobj (objSet ckvs n
          (Json.jobj (objSet dkvs "last_updated" (Json.jstr now))))))) ∧
    load_contexts w
      (fsSet fs (get_user_file_path w)
        (jsonDumps (Json.jobj (objSet ckvs n
          (Json.jobj (objSet dkvs "last_updated" (Json.jstr now))))))) =
      Json.jobj (objSet ckvs n
        (Json.jobj (objSet dkvs "last_updated" (Json.jstr now)))) := by
  have hcw : wfObj ckvs = true := by
    have := load_wf w fs
    rw [hld] at this
    exact this
  have hwfX : wfJson (Json.jobj (objSet ckvs n
      (Json.jobj (objSet dkvs "last_updated" (Json.jstr now))))) = true := by
    rw [wfJson]
    exact wfObj_objSet ckvs n _ hcw (wfObj_objSet dkvs "last_updated" _ hdw rfl)
  constructor
  · rw [save_context, if_neg hw, hld]
    show Except.ok (save_contexts (Json.jobj (objSet ckvs n
      (Json.jobj (objSet dkvs "last_updated" (Json.jstr now))))) w fs) = _
    rw [save_contexts, if_neg hw]
  · exact load_fsSet w fs _ hw hwfX

theorem hexNibble_lt (c : Char) : hexNibble c < 16 := by
  simp only [hexNibble, hexVal]
  split
  · simp only [Option.getD]
    omega
  · split
    · simp only [Option.getD]
      omega
    · split
      · simp only [Option.getD]
        omega
      · simp only [Option.getD]
        omega

theorem hexNibble_hexChar (d : Nat) (h : d < 16) :
    hexNibble (hexChar d) = d := by
  rw [hexNibble, hexVal_hexChar d h]
  rfl

theorem hexChar_canon (d : Nat) (h : d < 16) :
    hexChar d = hexChar (hexNibble (hexChar d)) := by
  rw [hexNibble_hexChar d h]

theorem keyNat_lt (xs : List Char) : keyNat xs < 16 ^ xs.length := by
  induction xs with
  | nil => simp [keyNat]
  | cons c t ih =>
      rw [keyNat, List.length_cons, pow_succ]
      have h1 : hexNibble c * 16 ^ t.length ≤ 15 * 16 ^ t.length :=
        Nat.mul_le_mul_right _ (by have := hexNibble_lt c; omega)
      omega

theorem keyNat_inj (xs : List Char) : ∀ ys : List Char,
    xs.length = ys.length →
    (∀ c ∈ xs, c = hexChar (hexNibble c)) →
    (∀ c ∈ ys, c = hexChar (hexNibble c)) →
    keyNat xs = keyNat ys → xs = ys := by
  induction xs with
  | nil =>
      intro ys hlen _ _ _
      cases ys with
      | nil => rfl
      | cons d u => exact absurd hlen (by simp)
  | cons c t ih =>
      intro ys hlen hcx hcy hk
      cases ys with
      | nil => exact absurd hlen (by simp)
      | cons d u =>
          have hlen2 : t.length = u.length := by
            simpa using hlen
          rw [keyNat, keyNat, hlen2] at hk
          have hrt : keyNat t < 16 ^ u.length := hlen2 ▸ keyNat_lt t
          have hru : keyNat u < 16 ^ u.length := keyNat_lt u
          have hB : 0 < 16 ^ u.length := Nat.pos_pow_of_pos _ (by omega)
          have hdiv : hexNibble c = hexNibble d := by
            have e1 : (hexNibble c * 16 ^ u.length + keyNat t) / 16 ^ u.length
                = hexNibble c := by
              rw [Nat.mul_comm, Nat.mul_add_div hB, Nat.div_eq_of_lt hrt]
              omega
            have e2 : (hexNibble d * 16 ^ u.length + keyNat u) / 16 ^ u.length
                = hexNibble d := by
              rw [Nat.mul_comm, Nat.mul_add_div hB, Nat.div_eq_of_lt hru]
              omega
            rw [← e1, ← e2, hk]
          have hcd : c = d := by
            rw [hcx c (by simp), hcy d (by simp), hdiv]
          have htu : t = u := by
            refine ih u hlen2 (fun x hx => hcx x (by simp [hx]))
              (fun x hx => hcy x (by simp [hx])) ?_
            have := hdiv ▸ hk
            omega
          rw [hcd, htu]

theorem wordHex_canon (x : Nat) : ∀ c ∈ wordHex x,
    c = hexChar (hexNibble c) := by
  intro c hc
  rw [wordHex] at hc
  simp only [List.mem_cons, List.not_mem_nil, or_false] at hc
  rcases hc with rfl | rfl | rfl | rfl | rfl | rfl | rfl | rfl <;>
    exact hexChar_canon _ (Nat.mod_lt _ (by omega))

theorem sha256Hex_length (msg : List Nat) : (sha256Hex msg).length = 64 := by
  rw [sha256Hex]
  simp [wordHex]

theorem keyHash_length (w : String) : (keyHash w).length = 16 := by
  rw [keyHash, List.length_take, sha256Hex_length]
  decide

theorem keyHash_canon (w : String) : ∀ c ∈ keyHash w,
    c = hexChar (hexNibble c) := by
  intro c hc
  rw [keyHash] at hc
  have hc2 := List.mem_of_mem_take hc
  rw [sha256Hex] at hc2
  simp only [List.mem_append] at hc2
  rcases hc2 with ((((((h | h) | h) | h) | h) | h) | h) | h <;>
    exact wordHex_canon _ c h

/-- C3: for a non-empty workspace key, a record that is a JSON dict, and
a tenant whose stored collection loads as a dict, save_context followed
by get_context on the same name returns the record with every field
unchanged except last_updated, which is set to the save-time timestamp
(that the stamped wall-clock value compares at least the record's
created field is a property of the clock, outside the program). -/
theorem C3_save_then_get_roundtrip (w n now : String) (dkvs ckvs : JsonObj)
    (fs : Fs) (hw : ¬ w = "") (hld : load_contexts w fs = Json.jobj ckvs)
    (hdw : wfObj dkvs = true) :
    ∃ fs2, save_context n (Json.jobj dkvs) w now fs = Except.ok fs2 ∧
      get_context n w fs2 =
        Except.ok (some (Json.jobj (objSet dkvs "last_updated" (Json.jstr now)))) ∧
      (∀ k, ¬ k = "last_updated" →
        objGet (objSet dkvs "last_updated" (Json.jstr now)) k = objGet dkvs k) ∧
      objGet (objSet dkvs "last_updated" (Json.jstr now)) "last_updated"
        = some (Json.jstr now) := by
  obtain ⟨hsave, hload⟩ := get_after_save w n now dkvs ckvs fs hw hld hdw
  refine ⟨_, hsave, ?_, ?_, ?_⟩
  · simp only [get_context, hload, objGet_objSet_self]
  · intro k hk
    exact objGet_objSet_ne dkvs "last_updated" k (Json.jstr now) hk
  · exact objGet_objSet_self dkvs "last_updated" (Json.jstr now)

theorem C3_witness :
    ¬ "w" = "" ∧ load_contexts "w" [] = Json.jobj .nil ∧ wfObj .nil = true ∧
    (∃ fs2, save_context "N" (Json.jobj .nil) "w" "t" [] = Except.ok fs2 ∧
      get_context "N" "w" fs2 =
        Except.ok (some (Json.jobj (objSet .nil "last_updated" (Json.jstr "t")))) ∧
      (∀ k, ¬ k = "last_updated" →
        objGet (objSet .nil "last_updated" (Json.jstr "t")) k = objGet .nil k) ∧
      objGet (objSet .nil "last_updated" (Json.jstr "t")) "last_updated"
        = some (Json.jstr "t")) :=
  ⟨by decide, by rfl, rfl,
    C3_save_then_get_roundtrip "w" "N" "t" .nil .nil [] (by decide) (by rfl) rfl⟩

/-- C4: for a non-empty workspace key and an input on which json.loads
fails, import_context returns False and the resulting on-disk state is
exactly the input state, so every later read sees what it saw before. -/
theorem C4_import_malformed_is_noop (js w now : String) (cn : Option String)
    (fs : Fs) (hw : ¬ w = "") (hp : parseJson js = none) :
    import_context js w cn now fs = Except.ok (false, fs) := by
  rw [import_context.eq_def, if_neg hw, hp]

theorem C4_witness :
    ¬ "w" = "" ∧ parseJson "not valid json" = none ∧
    import_context "not valid json" "w" none "t" [] = Except.ok (false, []) :=
  ⟨by decide, by rfl,
    C4_import_malformed_is_noop "not valid json" "w" "t" none [] (by decide) (by rfl)⟩

/-- C6: for a non-empty workspace key whose tenant document exists but
does not parse as JSON, load_contexts returns the empty dict rather than
an error, so get_context_names returns the empty list and get_context
finds nothing. -/
theorem C6_corrupt_document_reads_empty (w content : String) (fs : Fs)
    (hw : ¬ w = "") (hf : fsGet fs (get_user_file_path w) = some content)
    (hp : parseJson content = none) :
    load_contexts w fs = Json.jobj .nil ∧
    get_context_names w fs = Except.ok [] ∧
    ∀ n, get_context n w fs = Except.ok none := by
  have hl : load_contexts w fs = Json.jobj .nil := by
    rw [load_contexts, if_neg hw]
    simp only [hf, hp]
  refine ⟨hl, ?_, ?_⟩
  · rw [get_context_names, hl]
    rfl
  · intro n
    rw [get_context, hl]
    rfl

theorem C6_witness :
    ¬ "w" = "" ∧
    fsGet [(get_user_file_path "w", "oops")] (get_user_file_path "w") = some "oops" ∧
    parseJson "oops" = none ∧
    (load_contexts "w" [(get_user_file_path "w", "oops")] = Json.jobj .nil ∧
     get_context_names "w" [(get_user_file_path "w", "oops")] = Except.ok [] ∧
     ∀ n, get_context n "w" [(get_user_file_path "w", "oops")] = Except.ok none) :=
  ⟨by decide, by rfl, by rfl,
    C6_corrupt_document_reads_empty "w" "oops" [(get_user_file_path "w", "oops")]
      (by decide) (by rfl) (by rfl)⟩

/-- C7 (amended): the key derivation never fails.  Every workspace key,
the empty string included, is hashed to a 16-hex-character key inside a
44-character file path; the empty-key guard lives in the calling
operations, which return early without deriving a key, not in the
derivation itself. -/
theorem C7_derivation_total_guards_elsewhere (w : String) (fs : Fs) (c : Json)
    (n js now : String) (cn : Option String) :
    (get_user_file_path w).length = 44 ∧
    load_contexts "" fs = Json.jobj .nil ∧
    save_contexts c "" fs = fs ∧
    delete_context n "" fs = Except.ok fs ∧
    import_context js "" cn now fs = Except.ok (false, fs) := by
  refine ⟨?_, ?_, ?_, ?_, ?_⟩
  · rw [get_user_file_path]
    show ("user_contexts/contexts_".data ++ keyHash w ++ ".json".data).length = 44
    rw [List.length_append, List.length_append, keyHash_length]
    decide
  · rw [load_contexts, if_pos rfl]
  · rw [save_contexts, if_pos rfl]
  · rw [delete_context, if_pos rfl]
  · rw [import_context.eq_def, if_pos rfl]

/-- C7 counterexample to the original claim: on the empty workspace key
the derivation does not refuse to operate; it produces the path of the
SHA-256 hash of the empty byte string. -/
theorem C7_counterexample :
    get_user_file_path "" = "user_contexts/contexts_e3b0c44298fc1c14.json" := by
  rfl

/-- C9: deleting a name that is not in the tenant's collection, or
deleting under the empty workspace key, raises nothing and returns with
the on-disk state exactly as it was, so a second delete of the same name
does what the first did: nothing. -/
theorem C9_delete_missing_is_noop (w n : String) (fs : Fs)
    (h : w = "" ∨ ∃ ckvs, load_contexts w fs = Json.jobj ckvs ∧ objGet ckvs n = none) :
    delete_context n w fs = Except.ok fs := by
  rcases h with h | ⟨ckvs, hld, hget⟩
  · rw [delete_context, if_pos h]
  · by_cases hw : w = ""
    · rw [delete_context, if_pos hw]
    · rw [delete_context, if_neg hw, hld]
      show (if (objGet ckvs n).isSome then _ else Except.ok fs) = _
      rw [hget]
      rfl

theorem C9_witness : delete_context "N" "" [] = Except.ok [] :=
  C9_delete_missing_is_noop "" "N" [] (Or.inl rfl)

/-- C10: for a non-empty workspace key, an import payload that parses to
a non-dict top-level value and no explicit name, the company_name lookup
on the parsed value raises AttributeError, which import_context does not
catch (it catches only JSONDecodeError), and the raise happens before
any write, so the on-disk state is unchanged. -/
theorem C10_import_nonobject_raises (js w now : String) (v : Json) (fs : Fs)
    (hw : ¬ w = "") (hp : parseJson js = some v)
    (hv : ∀ kvs, ¬ v = Json.jobj kvs) :
    import_context js w none now fs = Except.error (PyError.attributeError, fs) := by
  rw [import_context.eq_def, if_neg hw, hp]
  cases v with
  | jobj kvs => exact absurd rfl (hv kvs)
  | jnull => rfl
  | jbool b => rfl
  | jnum n2 => rfl
  | jstr s => rfl
  | jarr xs => rfl

theorem C10_witness :
    ¬ "w" = "" ∧ parseJson "[1]" = some (Json.jarr (.cons (Json.jnum 1) .nil)) ∧
    import_context "[1]" "w" none "t" [] = Except.error (PyError.attributeError, []) :=
  ⟨by decide, by rfl,
    C10_import_nonobject_raises "[1]" "w" "t" (Json.jarr (.cons (Json.jnum 1) .nil)) []
      (by decide) (by rfl) (fun kvs h => Json.noConfusion h)⟩

/-- C8: with a non-empty workspace key and a tenant collection that
loads as a dict, save_context under name n and delete_context of name n
leave get_context of every other name m unchanged. -/
theorem C8_save_delete_frame (w n m now : String) (dkvs ckvs : JsonObj)
    (fs : Fs) (hw : ¬ w = "") (hmn : ¬ m = n)
    (hld : load_contexts w fs = Json.jobj ckvs) (hdw : wfObj dkvs = true) :
    (∀ fs2, save_context n (Json.jobj dkvs) w now fs = Except.ok fs2 →
      get_context m w fs2 = get_context m w fs) ∧
    (∀ fs3, delete_context n w fs = Except.ok fs3 →
      get_context m w fs3 = get_context m w fs) := by
  have hcw : wfObj ckvs = true := by
    have := load_wf w fs
    rwa [hld, wfJson] at this
  constructor
  · intro fs2 h2
    obtain ⟨hsave, hload⟩ := get_after_save w n now dkvs ckvs fs hw hld hdw
    rw [h2] at hsave
    injection hsave with hsave
    rw [hsave]
    simp only [get_context, hload, hld, objGet_objSet_ne ckvs n m _ hmn]
  · intro fs3 h3
    by_cases hmem : (objGet ckvs n).isSome
    · have h3' : delete_context n w fs =
          Except.ok (save_contexts (Json.jobj (objDel ckvs n)) w fs) := by
        rw [delete_context, if_neg hw, hld]
        show (if (objGet ckvs n).isSome
          then Except.ok (save_contexts (Json.jobj (objDel ckvs n)) w fs)
          else Except.ok fs) = _
        rw [if_pos hmem]
      rw [h3'] at h3
      injection h3 with h3
      rw [← h3, save_contexts, if_neg hw]
      have hwfD : wfJson (Json.jobj (objDel ckvs n)) = true := by
        rw [wfJson]
        exact wfObj_objDel ckvs n hcw
      simp only [get_context, load_fsSet w fs _ hw hwfD, hld,
        objGet_objDel_ne ckvs n m hmn]
    · have h3' : delete_context n w fs = Except.ok fs := by
        rw [delete_context, if_neg hw, hld]
        show (if (objGet ckvs n).isSome
          then Except.ok (save_contexts (Json.jobj (objDel ckvs n)) w fs)
          else Except.ok fs) = _
        rw [if_neg hmem]
      rw [h3'] at h3
      injection h3 with h3
      rw [← h3]

theorem C8_witness :
    ¬ "w" = "" ∧ ¬ "M" = "N" ∧ load_contexts "w" [] = Json.jobj .nil ∧
    (∀ fs2, save_context "N" (Json.jobj .nil) "w" "t" [] = Except.ok fs2 →
      get_context "M" "w" fs2 = get_context "M" "w" []) ∧
    (∀ fs3, delete_context "N" "w" [] = Except.ok fs3 →
      get_context "M" "w" fs3 = get_context "M" "w" []) := by
  refine ⟨by decide, by decide, by rfl, ?_⟩
  have h := C8_save_delete_frame "w" "N" "M" "t" .nil .nil []
    (by decide) (by decide) (by rfl) rfl
  exact ⟨h.1, h.2⟩

theorem get_context_wf (name w : String) (fs : Fs) (v : Json)
    (h : get_context name w fs = Except.ok (some v)) : wfJson v = true := by
  rw [get_context] at h
  split at h
  · rename_i kvs heqL
    injection h with h
    have hkw : wfObj kvs = true := by
      have := load_wf w fs
      rwa [heqL, wfJson] at this
    exact objGet_wf kvs name v hkw h
  · exact absurd h (by simp)

/-- C1 (amended): for a non-empty workspace key, importing a JSON
document that parses to a dict with a string company_name and no
explicit name succeeds and stores the parsed dict under that
company_name with only last_updated stamped; every other field,
preferred_grant_criteria included, is stored exactly as imported — a
missing criteria field stays missing, no default is filled in. -/
theorem C1_import_stores_no_default_criteria (w now js nm : String)
    (kvs ckvs : JsonObj) (fs : Fs)
    (hw : ¬ w = "") (hjs : parseJson js = some (Json.jobj kvs))
    (hnm : objGet kvs "company_name" = some (Json.jstr nm))
    (hld : load_contexts w fs = Json.jobj ckvs) :
    import_context js w none now fs = Except.ok (true,
      fsSet fs (get_user_file_path w) (jsonDumps (Json.jobj (objSet ckvs nm
        (Json.jobj (objSet kvs "last_updated" (Json.jstr now))))))) ∧
    get_context nm w
      (fsSet fs (get_user_file_path w) (jsonDumps (Json.jobj (objSet ckvs nm
        (Json.jobj (objSet kvs "last_updated" (Json.jstr now))))))) =
      Except.ok (some (Json.jobj (objSet kvs "last_updated" (Json.jstr now)))) ∧
    objGet (objSet kvs "last_updated" (Json.jstr now)) "preferred_grant_criteria"
      = objGet kvs "preferred_grant_criteria" := by
  have hkw : wfObj kvs = true := by
    have := parseJson_sound _ _ hjs
    rwa [wfJson] at this
  obtain ⟨hsave, hload⟩ := get_after_save w nm now kvs ckvs fs hw hld hkw
  refine ⟨?_, ?_, ?_⟩
  · rw [import_context.eq_def, if_neg hw, hjs]
    simp only [hnm, pyKeyStr, hsave]
  · simp only [get_context, hload, objGet_objSet_self]
  · exact objGet_objSet_ne kvs "last_updated" "preferred_grant_criteria" _ (by decide)

theorem C1_witness :
    ¬ "w" = "" ∧
    parseJson "\x7b\"company_name\":\"X\"\x7d" =
      some (Json.jobj (.cons "company_name" (Json.jstr "X") .nil)) ∧
    load_contexts "w" [] = Json.jobj .nil ∧
    (import_context "\x7b\"company_name\":\"X\"\x7d" "w" none "t" [] =
      Except.ok (true,
        fsSet [] (get_user_file_path "w") (jsonDumps (Json.jobj (objSet .nil "X"
          (Json.jobj (objSet (.cons "company_name" (Json.jstr "X") .nil)
            "last_updated" (Json.jstr "t"))))))) ∧
     get_context "X" "w"
       (fsSet [] (get_user_file_path "w") (jsonDumps (Json.jobj (objSet .nil "X"
         (Json.jobj (objSet (.cons "company_name" (Json.jstr "X") .nil)
           "last_updated" (Json.jstr "t"))))))) =
       Except.ok (some (Json.jobj (objSet (.cons "company_name" (Json.jstr "X") .nil)
         "last_updated" (Json.jstr "t")))) ∧
     objGet (objSet (.cons "company_name" (Json.jstr "X") .nil)
         "last_updated" (Json.jstr "t")) "preferred_grant_criteria"
       = objGet (.cons "company_name" (Json.jstr "X") .nil)
           "preferred_grant_criteria") :=
  ⟨by decide, by rfl, by rfl,
    C1_import_stores_no_default_criteria "w" "t" "\x7b\"company_name\":\"X\"\x7d" "X"
      (.cons "company_name" (Json.jstr "X") .nil) .nil []
      (by decide) (by rfl) (by rfl) (by rfl)⟩

/-- C1 counterexample to the original claim: importing the document of
the claim into an empty tenant stores a record named X whose
preferred_grant_criteria is absent (objGet returns none), not a record
whose preferred_grant_criteria.strong_yes is the empty sequence. -/
theorem C1_counterexample :
    import_context "\x7b\"company_name\":\"X\"\x7d" "w" none "t" [] =
      Except.ok (true,
        fsSet [] (get_user_file_path "w") (jsonDumps (Json.jobj (.cons "X"
          (Json.jobj (.cons "company_name" (Json.jstr "X")
            (.cons "last_updated" (Json.jstr "t") .nil))) .nil)))) ∧
    get_context "X" "w"
      (fsSet [] (get_user_file_path "w") (jsonDumps (Json.jobj (.cons "X"
        (Json.jobj (.cons "company_name" (Json.jstr "X")
          (.cons "last_updated" (Json.jstr "t") .nil))) .nil)))) =
      Except.ok (some (Json.jobj (.cons "company_name" (Json.jstr "X")
        (.cons "last_updated" (Json.jstr "t") .nil)))) ∧
    objGet (.cons "company_name" (Json.jstr "X")
        (.cons "last_updated" (Json.jstr "t") .nil)) "preferred_grant_criteria"
      = none := by
  refine ⟨by rfl, by rfl, by rfl⟩

/-- C5 (amended): exporting a truthy record held under name n and
importing the exported document into another non-empty workspace whose
collection loads as a dict succeeds, and stores the record under the
record's own company_name field — not necessarily under n — identical to
the original in every field except last_updated.  company_context and
preferred_grant_criteria in particular carry over unchanged. -/
theorem C5_export_import_roundtrip (w w2 n m now : String)
    (rkvs ckvs2 : JsonObj) (fs fs2 : Fs)
    (hw2 : ¬ w2 = "")
    (hget : get_context n w fs = Except.ok (some (Json.jobj rkvs)))
    (htr : jsonTruthy (Json.jobj rkvs) = true)
    (hnm : objGet rkvs "company_name" = some (Json.jstr m))
    (hld2 : load_contexts w2 fs2 = Json.jobj ckvs2) :
    export_context n w fs = Except.ok (some (jsonDumps (Json.jobj rkvs))) ∧
    import_context (jsonDumps (Json.jobj rkvs)) w2 none now fs2 =
      Except.ok (true,
        fsSet fs2 (get_user_file_path w2) (jsonDumps (Json.jobj (objSet ckvs2 m
          (Json.jobj (objSet rkvs "last_updated" (Json.jstr now))))))) ∧
    get_context m w2
      (fsSet fs2 (get_user_file_path w2) (jsonDumps (Json.jobj (objSet ckvs2 m
        (Json.jobj (objSet rkvs "last_updated" (Json.jstr now))))))) =
      Except.ok (some (Json.jobj (objSet rkvs "last_updated" (Json.jstr now)))) ∧
    (∀ k, ¬ k = "last_updated" →
      objGet (objSet rkvs "last_updated" (Json.jstr now)) k = objGet rkvs k) := by
  have hrw : wfObj rkvs = true := by
    have := get_context_wf n w fs _ hget
    rwa [wfJson] at this
  have hwfrec : wfJson (Json.jobj rkvs) = true := by
    rw [wfJson]
    exact hrw
  obtain ⟨hsave, hload⟩ := get_after_save w2 m now rkvs ckvs2 fs2 hw2 hld2 hrw
  refine ⟨?_, ?_, ?_, ?_⟩
  · rw [export_context, hget]
    simp only [htr, if_true]
  · rw [import_context.eq_def, if_neg hw2, parseJson_dumps _ hwfrec]
    simp only [hnm, pyKeyStr, hsave]
  · simp only [get_context, hload, objGet_objSet_self]
  · intro k hk
    exact objGet_objSet_ne rkvs "last_updated" k _ hk

theorem C5_witness :
    ¬ "b" = "" ∧
    get_context "N" "w"
        [(get_user_file_path "w", jsonDumps (Json.jobj (.cons "N"
          (Json.jobj (.cons "company_name" (Json.jstr "M") .nil)) .nil)))] =
      Except.ok (some (Json.jobj (.cons "company_name" (Json.jstr "M") .nil))) ∧
    jsonTruthy (Json.jobj (.cons "company_name" (Json.jstr "M") .nil)) = true ∧
    objGet (.cons "company_name" (Json.jstr "M") .nil) "company_name" =
      some (Json.jstr "M") ∧
    load_contexts "b" [] = Json.jobj .nil ∧
    (export_context "N" "w"
        [(get_user_file_path "w", jsonDumps (Json.jobj (.cons "N"
          (Json.jobj (.cons "company_name" (Json.jstr "M") .nil)) .nil)))] =
      Except.ok (some (jsonDumps
        (Json.jobj (.cons "company_name" (Json.jstr "M") .nil)))) ∧
    import_context (jsonDumps (Json.jobj (.cons "company_name" (Json.jstr "M") .nil)))
        "b" none "t2" [] =
      Except.ok (true,
        fsSet [] (get_user_file_path "b") (jsonDumps (Json.jobj (objSet .nil "M"
          (Json.jobj (objSet (.cons "company_name" (Json.jstr "M") .nil)
            "last_updated" (Json.jstr "t2"))))))) ∧
    get_context "M" "b"
        (fsSet [] (get_user_file_path "b") (jsonDumps (Json.jobj (objSet .nil "M"
          (Json.jobj (objSet (.cons "company_name" (Json.jstr "M") .nil)
            "last_updated" (Json.jstr "t2"))))))) =
      Except.ok (some (Json.jobj (objSet (.cons "company_name" (Json.jstr "M") .nil)
        "last_updated" (Json.jstr "t2")))) ∧
    (∀ k, ¬ k = "last_updated" →
      objGet (objSet (.cons "company_name" (Json.jstr "M") .nil)
          "last_updated" (Json.jstr "t2")) k =
        objGet (.cons "company_name" (Json.jstr "M") .nil) k)) :=
  ⟨by decide, by rfl, rfl, by rfl, by rfl,
    C5_export_import_roundtrip "w" "b" "N" "M" "t2"
      (.cons "company_name" (Json.jstr "M") .nil) .nil
      [(get_user_file_path "w", jsonDumps (Json.jobj (.cons "N"
        (Json.jobj (.cons "company_name" (Json.jstr "M") .nil)) .nil)))] []
      (by decide) (by rfl) rfl (by rfl) (by rfl)⟩

/-- C5 counterexample to the original claim: a record held under name N
whose company_name field is M round-trips through export and import
into a fresh workspace as a record stored under M, and nothing is stored
under N — the original name is not preserved. -/
theorem C5_counterexample :
    ∃ doc fs3,
      export_context "N" "w"
          [(get_user_file_path "w", jsonDumps (Json.jobj (.cons "N"
            (Json.jobj (.cons "company_name" (Json.jstr "M") .nil)) .nil)))] =
        Except.ok (some doc) ∧
      import_context doc "b" none "t2" [] = Except.ok (true, fs3) ∧
      get_context "N" "b" fs3 = Except.ok none ∧
      get_context "M" "b" fs3 =
        Except.ok (some (Json.jobj (.cons "company_name" (Json.jstr "M")
          (.cons "last_updated" (Json.jstr "t2") .nil)))) := by
  refine ⟨_, _, rfl, rfl, rfl, rfl⟩

theorem canon_map_eq (l : List Char) (h : ∀ c ∈ l, c = hexChar (hexNibble c)) :
    l = l.map (fun c => hexChar (hexNibble c)) := by
  induction l with
  | nil => rfl
  | cons c t ih =>
      rw [List.map_cons]
      rw [← h c (by simp), ← ih (fun x hx => h x (by simp [hx]))]

/-- C2 (amended): the derived tenant key is deterministic and always a
16-character lowercase-hex digest, but distinct identifiers are only
collision-free with overwhelming probability, not universally: the key
space is finite, so distinct identifiers with equal keys exist. -/
theorem C2_key_is_16_hex (w : String) :
    (keyHash w).length = 16 ∧
    keyHash w = (keyHash w).map (fun c => hexChar (hexNibble c)) :=
  ⟨keyHash_length w, canon_map_eq _ (keyHash_canon w)⟩

theorem hex_pigeonhole (K : Nat → List Char)
    (hlen : ∀ n, (K n).length = 16)
    (hcanon : ∀ n, ∀ c ∈ K n, c = hexChar (hexNibble c)) :
    ∃ a b : Nat, a ≠ b ∧ K a = K b := by
  have hf : ∀ n : Nat, keyNat (K n) < 16 ^ 16 := by
    intro n
    have := keyNat_lt (K n)
    rwa [hlen] at this
  obtain ⟨i, j, hij, heq⟩ :=
    Fintype.exists_ne_map_eq_of_card_lt
      (fun i : Fin (16 ^ 16 + 1) => (⟨keyNat (K i.1), hf i.1⟩ : Fin (16 ^ 16)))
      (by simp only [Fintype.card_fin]; exact Nat.lt_succ_self _)
  have hkeq : keyNat (K i.1) = keyNat (K j.1) := congrArg Fin.val heq
  refine ⟨i.1, j.1, ?_,
    keyNat_inj _ _ (by rw [hlen, hlen]) (hcanon _) (hcanon _) hkeq⟩
  intro h
  exact hij (Fin.ext h)

/-- C2 counterexample to the original claim: only 16^16 tenant keys
exist, so among any 16^16 + 1 pairwise distinct non-empty workspace
keys two share their derived key, and with it their tenant document
path — the stated universal injectivity is false. -/
theorem C2_counterexample :
    ∃ w1 w2 : String, ¬ w1 = "" ∧ ¬ w2 = "" ∧ ¬ w1 = w2 ∧
      keyHash w1 = keyHash w2 ∧
      get_user_file_path w1 = get_user_file_path w2 := by
  obtain ⟨a, b, hab, hkeys⟩ := hex_pigeonhole (fun n => keyHash (repKey n))
    (fun n => keyHash_length _) (fun n => keyHash_canon _)
  refine ⟨repKey a, repKey b, ?_, ?_, ?_, hkeys, ?_⟩
  · intro h
    have hd := congrArg String.data h
    have : a + 1 = 0 := by simpa [repKey] using congrArg List.length hd
    omega
  · intro h
    have hd := congrArg String.data h
    have : b + 1 = 0 := by simpa [repKey] using congrArg List.length hd
    omega
  · intro h
    have hd := congrArg String.data h
    have hlen : a + 1 = b + 1 := by simpa [repKey] using congrArg List.length hd
    exact hab (by omega)
  · rw [get_user_file_path, get_user_file_path, hkeys]
